import Mathlib

/-!
Verification of the hone-node entity-template engine (src/src/agent.ts and the
overlay callback of src/src/client.ts) against its natural-language
specification.  The TypeScript sources are shallowly embedded: strings are
`List Char` wrapped in `String`, JavaScript objects holding string keys are
association lists in entry order, `undefined`/`null` are `Option`, and thrown
exceptions are `Except EvalError` (an `Error` with a message, or the
`SyntaxError` of an invalid `new RegExp` pattern; runs that would leave the
modelled regex fragment carry an explicit out-of-model marker, and every
theorem's hypotheses keep its inputs inside the fragment).  Since
`insertParamsIntoPrompt` builds `new RegExp` from unescaped `{{key}}` text,
pattern compilation is modelled on the Annex B grammar (`patParse`):
brace quantifiers formed by all-digit keys, SyntaxErrors, and literal
patterns for everything brace-free and metacharacter-free.  The JS `in`
operator is modelled with the inherited `Object.prototype` property names.
`String.prototype.replace(regexp, str)` is modelled including the
ECMAScript GetSubstitution treatment of `$`-sequences in the replacement
string, since parameter values are passed as plain replacement strings.
-/

/-- The regex word-character class `\w` used by the placeholder regex:
ASCII letters, digits and underscore. -/
def isWordChar (c : Char) : Bool :=
  (65 ≤ c.toNat && c.toNat ≤ 90) || (97 ≤ c.toNat && c.toNat ≤ 122) ||
    (48 ≤ c.toNat && c.toNat ≤ 57) || (c.toNat == 95)

/-- The opening-brace character of a `\x7b\x7bname\x7d\x7d` placeholder. -/
def lbChar : Char := Char.ofNat 123

/-- The closing-brace character. -/
def rbChar : Char := Char.ofNat 125

/-- The dollar character, special in JS replacement strings. -/
def dollarChar : Char := Char.ofNat 36

/-- The ampersand character (`$&` inserts the matched substring). -/
def ampChar : Char := Char.ofNat 38

/-- The backquote character (the `$`-backquote sequence inserts the prefix
of the subject string before the match). -/
def btChar : Char := Char.ofNat 96

/-- The single-quote character (the `$`-quote sequence inserts the suffix
of the subject string after the match). -/
def sqChar : Char := Char.ofNat 39

/-- The character list of the literal pattern `\x7b\x7bk\x7d\x7d` that
`insertParamsIntoPrompt` builds for a key `k`. -/
def patChars (k : List Char) : List Char :=
  lbChar :: lbChar :: (k ++ [rbChar, rbChar])

/-- ASCII decimal digit (the `DecimalDigit` class of the pattern grammar). -/
def isDigitCh (c : Char) : Bool :=
  48 ≤ c.toNat && c.toNat ≤ 57

/-- Numeric value of a decimal digit run (the `DecimalDigits` of a braced
quantifier). -/
def digitsToNat (ds : List Char) : Nat :=
  ds.foldl (fun n c => 10 * n + (c.toNat - 48)) 0

/-- The shape `new RegExp(pattern, "g")` compiles to, within the modelled
fragment of the ECMAScript Annex B pattern grammar: `lit s` when the
pattern denotes exactly the literal character sequence `s` (pattern
characters are literal atoms; an exact braced quantifier after an atom
repeats it), `err` when the constructor throws a SyntaxError, and
`unmodelled` when the pattern uses regex syntax beyond the fragment
(classes, groups, escapes, anchors, alternation, `*`/`+`/`?` or range
quantifiers). -/
inductive RegexShape where
  | lit (s : List Char)
  | err
  | unmodelled
deriving DecidableEq

/-- A pattern character the Annex B grammar reads as a literal atom and
that cannot open a quantifier, class, group, escape, anchor or
alternation: anything except `^ $ \ . * + ? ( ) [ |` and the opening brace
(character codes 94, 36, 92, 46, 42, 43, 63, 40, 41, 91, 124 and 123).
Lone closing braces and `]` are literal pattern characters in Annex B. -/
def plainChar (c : Char) : Bool :=
  !(c.toNat = 94 || c.toNat = 36 || c.toNat = 92 || c.toNat = 46 ||
    c.toNat = 42 || c.toNat = 43 || c.toNat = 63 || c.toNat = 40 ||
    c.toNat = 41 || c.toNat = 91 || c.toNat = 124 || c.toNat = 123)

/-- The Annex B pattern parser over the modelled fragment.  `lastAtom` is
the preceding literal atom (the accumulated literal `acc` ends with it)
that a braced quantifier would repeat.  An opening brace (code 123)
followed by a digit run and a closing brace (code 125) is an exact
quantifier repeating the preceding atom that many times (`a` followed by
the quantifier `n` contributes `n` copies of `a`); with no preceding atom,
or as a range quantifier (a comma, code 44, after the digits), the pattern
leaves the fragment.  Any other opening brace is a literal atom, as are
closing braces, `]` (code 93) and every other plain character.  An
unterminated class (code 91 with no closing 93) and an unmatched closing
parenthesis (code 41) are SyntaxErrors; classes with a closer, groups,
escapes, anchors, alternation and the `* + ?` quantifiers leave the
fragment. -/
def patParseAux : Nat → Option Char → List Char → List Char → RegexShape
  | 0, _, _, _ => RegexShape.unmodelled
  | _ + 1, _, acc, [] =>
    if acc.isEmpty then RegexShape.unmodelled else RegexShape.lit acc
  | fuel + 1, lastAtom, acc, c :: rest =>
    if c.toNat = 91 then
      (if rest.any (fun d => d.toNat = 93) then RegexShape.unmodelled
       else RegexShape.err)
    else if c.toNat = 41 then RegexShape.err
    else if c.toNat = 94 || c.toNat = 36 || c.toNat = 92 || c.toNat = 46 ||
        c.toNat = 42 || c.toNat = 43 || c.toNat = 63 || c.toNat = 40 ||
        c.toNat = 124 then RegexShape.unmodelled
    else if c.toNat = 123 then
      if (rest.takeWhile isDigitCh).isEmpty then
        patParseAux fuel (some c) (acc ++ [c]) rest
      else
        match rest.dropWhile isDigitCh with
        | d :: rest2 =>
          if d.toNat = 125 then
            match lastAtom with
            | some a => patParseAux fuel none
                (acc.dropLast ++ List.replicate (digitsToNat (rest.takeWhile isDigitCh)) a)
                rest2
            | none => RegexShape.unmodelled
          else if d.toNat = 44 then RegexShape.unmodelled
          else patParseAux fuel (some c) (acc ++ [c]) rest
        | [] => patParseAux fuel (some c) (acc ++ [c]) rest
    else patParseAux fuel (some c) (acc ++ [c]) rest

/-- The compiled shape of `new RegExp(p, "g")`: each parse step consumes at
least one pattern character, so fuel `length + 1` reaches the end. -/
def patParse (p : List Char) : RegexShape :=
  patParseAux (p.length + 1) none [] p

/-- A compiled shape that is a nonempty literal matcher. -/
def litShape : RegexShape → Bool
  | .lit (_ :: _) => true
  | _ => false

/-- The runtime outcome of an embedded fallible computation: an `Error`
thrown with a message, a `SyntaxError` thrown by `new RegExp` on an
invalid pattern, or behaviour outside the modelled regex fragment. -/
inductive EvalError where
  | thrown (msg : String)
  | regexSyntax
  | unmodelled
deriving DecidableEq

/-- ECMAScript GetSubstitution for a regexp with no capture groups:
expands `$$`, `$&`, the `$`-backquote and `$`-quote sequences in the
replacement string; every other character (including a `$` not starting a
recognised sequence) is copied literally.  `matched` is the matched
substring, `before`/`after` the parts of the subject string around the
match. -/
def getSubstitution : List Char → List Char → List Char → List Char → List Char
  | [], _, _, _ => []
  | [c], _, _, _ => [c]
  | c :: d :: rest, matched, before, after =>
    if c = dollarChar then
      if d = dollarChar then dollarChar :: getSubstitution rest matched before after
      else if d = ampChar then matched ++ getSubstitution rest matched before after
      else if d = btChar then before ++ getSubstitution rest matched before after
      else if d = sqChar then after ++ getSubstitution rest matched before after
      else c :: getSubstitution (d :: rest) matched before after
    else c :: getSubstitution (d :: rest) matched before after

/-- `String.prototype.replace` with a global regexp that matches the literal
pattern `p0 :: ptail` and a plain replacement string `repl`: scans left to
right, replaces every (non-overlapping, leftmost) occurrence by the
GetSubstitution expansion of `repl`, and never re-scans replacement output.
`before` accumulates the original characters already scanned. -/
def replaceAux (p0 : Char) (ptail : List Char) (repl : List Char) :
    Nat → List Char → List Char → List Char
  | 0, _, _ => []
  | _ + 1, _, [] => []
  | fuel + 1, before, c :: cs =>
    if (p0 :: ptail).isPrefixOf (c :: cs) then
      getSubstitution repl (p0 :: ptail) before ((c :: cs).drop (ptail.length + 1)) ++
        replaceAux p0 ptail repl fuel (before ++ (p0 :: ptail)) ((c :: cs).drop (ptail.length + 1))
    else c :: replaceAux p0 ptail repl fuel (before ++ [c]) cs

/-- The scan of `replaceAux` consumes at least one character per step, so
any fuel of at least the subject length yields the total function. -/
def replaceGlobal (p0 : Char) (ptail : List Char) (repl : List Char)
    (before rest : List Char) : List Char :=
  replaceAux p0 ptail repl rest.length before rest

/-- `s.replace(new RegExp(pattern, "g"), repl)` for a pattern that the regex
engine reads as the literal character sequence `pattern` (true for the
patterns `insertParamsIntoPrompt` builds from word-identifier keys). -/
def jsReplaceAll (s : String) (pattern : String) (repl : String) : String :=
  match pattern.data with
  | [] => s
  | p0 :: ptail => ⟨replaceGlobal p0 ptail repl.data [] s.data⟩

/-- The entry-order fold of literal global replacements: the behaviour of
`insertParamsIntoPrompt` on the fragment where every key's pattern
compiles to exactly its literal placeholder (see `insertParams_lit`). -/
def substLiteral (prompt : String) (params : List (String × String)) : String :=
  params.foldl (fun result kv => jsReplaceAll result ⟨patChars kv.1.data⟩ kv.2) prompt

/-- `insertParamsIntoPrompt` from src/src/agent.ts: folds over the
`Object.entries` of `params` in entry order; each step builds
`new RegExp("\x7b\x7bkey\x7d\x7d", "g")` — the braces are not escaped, so the
pattern is read by the regex grammar (`patParse`): an all-digit key forms
a brace quantifier (the key `0` yields a pattern matching a lone closing
brace), and an invalid pattern (e.g. an unterminated class from the key
`[`) makes the constructor throw a SyntaxError.  On a literal-shape
pattern the matches in the accumulated result are globally replaced by the
value, a plain replacement string with `$`-sequences expanded. -/
def insertParamsIntoPrompt : String → List (String × String) → Except EvalError String
  | prompt, [] => .ok prompt
  | prompt, kv :: rest =>
    match patParse (patChars kv.1.data) with
    | .lit (p0 :: ptail) =>
      insertParamsIntoPrompt ⟨replaceGlobal p0 ptail kv.2.data [] prompt.data⟩ rest
    | .lit [] => .error EvalError.unmodelled
    | .err => .error EvalError.regexSyntax
    | .unmodelled => .error EvalError.unmodelled

/-- Modelled from the spec: "for every key in effective-params, replace
every literal occurrence of the key's placeholder with the corresponding
value … Substitution values are inserted as-is (no recursive re-scanning of
inserted text for further placeholders — a single pass)".  A single-key
single-pass verbatim global replacement. -/
def specSPRAux (p0 : Char) (ptail : List Char) (v : List Char) :
    Nat → List Char → List Char
  | 0, _ => []
  | _ + 1, [] => []
  | fuel + 1, c :: cs =>
    if (p0 :: ptail).isPrefixOf (c :: cs) then
      v ++ specSPRAux p0 ptail v fuel ((c :: cs).drop (ptail.length + 1))
    else c :: specSPRAux p0 ptail v fuel cs

/-- The single-pass replacement with sufficient fuel. -/
def specSinglePassReplace (p0 : Char) (ptail : List Char) (v : List Char)
    (rest : List Char) : List Char :=
  specSPRAux p0 ptail v rest.length rest

/-- The matches of the global placeholder regex over a character list, in
match order: at each position, a match needs two opening braces, a nonempty
maximal run of word characters, then two closing braces; on failure the scan
advances one character, on success it resumes after the match (the regex
`lastIndex` behaviour of `matchAll`). -/
def scanAux : Nat → List Char → List (List Char)
  | 0, _ => []
  | _ + 1, [] => []
  | _ + 1, [_] => []
  | fuel + 1, c1 :: c2 :: rest =>
    if c1 = lbChar ∧ c2 = lbChar then
      match rest.drop (rest.takeWhile isWordChar).length with
      | d1 :: d2 :: rest2 =>
        if (rest.takeWhile isWordChar) ≠ [] ∧ d1 = rbChar ∧ d2 = rbChar then
          rest.takeWhile isWordChar :: scanAux fuel rest2
        else scanAux fuel (c2 :: rest)
      | _ => scanAux fuel (c2 :: rest)
    else scanAux fuel (c2 :: rest)

/-- Each scan step either consumes a whole match (at least four characters)
or advances one character, so fuel equal to the length suffices. -/
def scanPlaceholders (s : List Char) : List (List Char) :=
  scanAux s.length s

/-- Key lookup in an association list modelling a JS object or `Map`
(first entry wins; pushed entries shadow older ones, matching
`Map.prototype.set` overwrite semantics for lookups). -/
def lookupKey {β : Type _} (k : String) : List (String × β) → Option β
  | [] => none
  | (k', v) :: rest => if k' = k then some v else lookupKey k rest

/-- JS object property assignment `m[k] = v`: updates the existing entry in
place (keeping its position, as JS objects do) or appends a new one. -/
def objSet {β : Type _} : List (String × β) → String → β → List (String × β)
  | [], k, v => [(k, v)]
  | (k', v') :: rest, k, v =>
    if k' = k then (k, v) :: rest else (k', v') :: objSet rest k v

/-- The JS `in` operator: key presence. -/
def containsKey {β : Type _} (k : String) (ps : List (String × β)) : Bool :=
  (lookupKey k ps).isSome

/-- The own property names of `Object.prototype`: the JS `in` operator
consults the prototype chain, so these names are `in` every plain object
regardless of its own entries. -/
def protoProps : List String :=
  ["constructor", "hasOwnProperty", "isPrototypeOf", "propertyIsEnumerable",
   "toLocaleString", "toString", "valueOf", "__proto__", "__defineGetter__",
   "__defineSetter__", "__lookupGetter__", "__lookupSetter__"]

/-- The JS `in` operator on a params object (`paramName in params`): an
own entry or an inherited `Object.prototype` property. -/
def jsIn (k : String) (ps : List (String × String)) : Bool :=
  containsKey k ps || protoProps.contains k

/-- `[...new Set(list)]`: deduplication keeping first occurrences. -/
def dedupFirst (seen : List String) : List String → List String
  | [] => []
  | x :: xs => if x ∈ seen then dedupFirst seen xs else x :: dedupFirst (x :: seen) xs

/-- The three entity kinds of the unified entity engine. -/
inductive EntityType where
  | agent
  | tool
  | prompt
deriving DecidableEq

/-- The string interpolated for an entity type in error messages. -/
def entityTypeStr : EntityType → String
  | .agent => "agent"
  | .tool => "tool"
  | .prompt => "prompt"

/-- `validateEntityParams` from src/src/agent.ts: collects every placeholder
identifier of the prompt that is not `in` `params` (the JS `in` operator,
so inherited `Object.prototype` property names always count as present),
and if any exist returns the MissingParameter error message (deduplicated
identifiers, pluralised when more than one). -/
def validateEntityParams (prompt : String) (params : List (String × String))
    (nodeId : String) (t : EntityType) : Option String :=
  let missing := (scanPlaceholders prompt.data).filterMap
    (fun w => if jsIn (⟨w⟩ : String) params then none else some (⟨w⟩ : String))
  if missing.isEmpty then none
  else
    let uniq := dedupFirst [] missing
    some ("Missing parameter" ++ (if uniq.length > 1 then "s" else "") ++ " in " ++
      entityTypeStr t ++ " \"" ++ nodeId ++ "\": " ++ String.intercalate ", " uniq)

/-- The optional LLM hyperparameter fields carried by agent nodes
(`undefined` on tools and prompts). -/
structure Hyperparameters where
  model : Option String
  provider : Option String
  temperature : Option Rat
  maxTokens : Option Rat
  topP : Option Rat
  frequencyPenalty : Option Rat
  presencePenalty : Option Rat
  stopSequences : Option (List String)
  tools : Option (List String)
deriving DecidableEq

/-- The all-`undefined` hyperparameter record of a non-agent node. -/
def emptyHyper : Hyperparameters :=
  ⟨none, none, none, none, none, none, none, none, none⟩

/-- `EntityNode` from src/src/types.ts: id, type, optional metadata, literal
params in entry order, template prompt, ordered children, hyperparameters. -/
inductive EntityNode where
  | mk (id : String) (type : EntityType) (majorVersion : Option Nat)
      (name : Option String) (params : List (String × String)) (prompt : String)
      (children : List EntityNode) (hyper : Hyperparameters)

def EntityNode.id : EntityNode → String
  | .mk i _ _ _ _ _ _ _ => i

def EntityNode.type : EntityNode → EntityType
  | .mk _ t _ _ _ _ _ _ => t

def EntityNode.majorVersion : EntityNode → Option Nat
  | .mk _ _ mv _ _ _ _ _ => mv

def EntityNode.name : EntityNode → Option String
  | .mk _ _ _ nm _ _ _ _ => nm

def EntityNode.params : EntityNode → List (String × String)
  | .mk _ _ _ _ ps _ _ _ => ps

def EntityNode.prompt : EntityNode → String
  | .mk _ _ _ _ _ pr _ _ => pr

def EntityNode.children : EntityNode → List EntityNode
  | .mk _ _ _ _ _ _ cs _ => cs

def EntityNode.hyper : EntityNode → Hyperparameters
  | .mk _ _ _ _ _ _ _ hy => hy

mutual

/-- The recursive step of `evaluateEntity` (src/src/agent.ts): consult the
memo, otherwise evaluate the children left to right (threading the memo),
assign each child's result into the effective params under the child's id,
validate, substitute, and record the result in the memo. -/
def evalNode : EntityNode → List (String × String) →
    Except EvalError (List (String × String) × String)
  | EntityNode.mk i t mv nm ps pr cs hy, memo =>
    match lookupKey i memo with
    | some v => .ok (memo, v)
    | none =>
      match evalChildren cs memo ps with
      | .error e => .error e
      | .ok (memo', params) =>
        match validateEntityParams pr params i t with
        | some err => .error (.thrown err)
        | none =>
          match insertParamsIntoPrompt pr params with
          | .error e => .error e
          | .ok r => .ok ((i, r) :: memo', r)
termination_by structural n _ => n

/-- Left-to-right evaluation of a child list, threading the memo and
assigning each child's value into the effective-params object. -/
def evalChildren : List EntityNode → List (String × String) → List (String × String) →
    Except EvalError (List (String × String) × List (String × String))
  | [], memo, params => .ok (memo, params)
  | c :: rest, memo, params =>
    match evalNode c memo with
    | .error e => .error e
    | .ok (memo', v) => evalChildren rest memo' (objSet params c.id v)
termination_by structural cs _ _ => cs

end

/-- `evaluateEntity` from src/src/agent.ts: each call starts from a fresh
empty memo. -/
def evaluateEntity (n : EntityNode) : Except EvalError String :=
  match evalNode n [] with
  | .error e => .error e
  | .ok (_, v) => .ok v

mutual

/-- Modelled from the spec: the naive memo-free depth-first reference
evaluation — evaluate every child recursively (no memo), assign child
results into the effective params, validate and substitute. -/
def evalNaive : EntityNode → Except EvalError String
  | EntityNode.mk i t _ _ ps pr cs _ =>
    match evalNaiveChildren cs ps with
    | .error e => .error e
    | .ok params =>
      match validateEntityParams pr params i t with
      | some err => .error (.thrown err)
      | none => insertParamsIntoPrompt pr params
termination_by structural n => n

/-- Naive evaluation of a child list in order, assigning results into the
effective-params object. -/
def evalNaiveChildren : List EntityNode → List (String × String) →
    Except EvalError (List (String × String))
  | [], params => .ok params
  | c :: rest, params =>
    match evalNaive c with
    | .error e => .error e
    | .ok v => evalNaiveChildren rest (objSet params c.id v)
termination_by structural cs _ => cs

end

mutual

/-- The pre-order visit list of `traverseEntityNode` (src/src/agent.ts):
the node itself, then the traversals of its children in child order.  The
callback of the source is applied to exactly these nodes in this order. -/
def visitList : EntityNode → List EntityNode
  | EntityNode.mk i t mv nm ps pr cs hy =>
    EntityNode.mk i t mv nm ps pr cs hy :: visitChildren cs
termination_by structural n => n

/-- Concatenated traversals of a child list. -/
def visitChildren : List EntityNode → List EntityNode
  | [] => []
  | c :: rest => visitList c ++ visitChildren rest
termination_by structural cs => cs

end

mutual

/-- A `ParamsValue` from src/src/types.ts: a literal string or a nested
entity configuration. -/
inductive ConfigValue where
  | str (s : String)
  | cfg (c : EntityConfig)

/-- A nested entity configuration (`GetAgentOptions` / `GetToolOptions` /
`GetTextPromptOptions`): `defaultPrompt` is always present; the agent
variants additionally carry `model`/`provider` (required for agents, hence
`isSome` exactly on agent options); `typeMarkerTool` models the presence of
a runtime `_type: "tool"` marker property, which no declared option type
carries. -/
inductive EntityConfig where
  | mk (majorVersion : Option Nat) (name : Option String)
      (params : List (String × ConfigValue)) (defaultPrompt : String)
      (typeMarkerTool : Bool) (hyper : Hyperparameters)

end

def EntityConfig.majorVersion : EntityConfig → Option Nat
  | .mk mv _ _ _ _ _ => mv

def EntityConfig.name : EntityConfig → Option String
  | .mk _ nm _ _ _ _ => nm

def EntityConfig.params : EntityConfig → List (String × ConfigValue)
  | .mk _ _ ps _ _ _ => ps

def EntityConfig.defaultPrompt : EntityConfig → String
  | .mk _ _ _ dp _ _ => dp

def EntityConfig.typeMarkerTool : EntityConfig → Bool
  | .mk _ _ _ _ tm _ => tm

def EntityConfig.hyper : EntityConfig → Hyperparameters
  | .mk _ _ _ _ _ hy => hy

/-- `isAgentOptions` from src/src/agent.ts: an object with `defaultPrompt`,
`model` and `provider` properties present (`defaultPrompt` is always
present on a configuration value; `model`/`provider` presence is the
`isSome` of the respective fields). -/
def isAgentOptions (c : EntityConfig) : Bool :=
  c.hyper.model.isSome && c.hyper.provider.isSome

/-- `isToolOptions` from src/src/agent.ts: `defaultPrompt` present, no
`model`/`provider`, and an explicit `_type: "tool"` marker. -/
def isToolOptions (c : EntityConfig) : Bool :=
  !c.hyper.model.isSome && !c.hyper.provider.isSome && c.typeMarkerTool

/-- `isTextPromptOptions` from src/src/agent.ts: `defaultPrompt` present,
no `model`/`provider`, not marked as a tool. -/
def isTextPromptOptions (c : EntityConfig) : Bool :=
  !c.hyper.model.isSome && !c.hyper.provider.isSome && !c.typeMarkerTool

/-- Own-entry key presence in a configuration params object. -/
def containsCfgOwn (k : String) : List (String × ConfigValue) → Bool
  | [] => false
  | (k', _) :: rest => k' = k || containsCfgOwn k rest

/-- The JS `in` operator on `options.params` (`id in options.params`): an
own entry or an inherited `Object.prototype` property, so ids such as
`toString` or `hasOwnProperty` are `in` every present params object. -/
def containsCfgKey (k : String) (ps : List (String × ConfigValue)) : Bool :=
  containsCfgOwn k ps || protoProps.contains k

/-- The self-reference error message of `getEntityNode`. -/
def selfRefMsg (t : EntityType) (id : String) : String :=
  "Self-referencing " ++ entityTypeStr t ++ " detected: " ++ entityTypeStr t ++
    " \"" ++ id ++ "\" cannot reference itself as a parameter"

/-- The circular-reference error message of `getEntityNode`: the ancestor
chain in insertion order with the repeated id appended, joined by arrows. -/
def circularMsg (t : EntityType) (path : List String) : String :=
  "Circular " ++ entityTypeStr t ++ " reference detected: " ++
    String.intercalate " -> " path

mutual

/-- `getEntityNode` from src/src/agent.ts: reject a self-reference (the id
among its own param keys), then a circular reference (the id already in the
ancestor chain, whose message renders the full chain), then build literal
params and children from the param entries in order.  The ancestor set is
copied and extended (`new Set(ancestorIds).add(id)`); a JS `Set` preserves
insertion order, so it is a duplicate-free list. -/
def getEntityNode : String → EntityType → EntityConfig → List String →
    Except String EntityNode
  | id, t, EntityConfig.mk mv nm ps dp tm hy, ancestorIds =>
    if containsCfgKey id ps then .error (selfRefMsg t id)
    else if id ∈ ancestorIds then .error (circularMsg t (ancestorIds ++ [id]))
    else
      match buildEntries ps (ancestorIds ++ [id]) [] [] with
      | .error e => .error e
      | .ok (sp, children) =>
        .ok (EntityNode.mk id t mv nm sp dp children
          (if t = EntityType.agent ∧ isAgentOptions (EntityConfig.mk mv nm ps dp tm hy)
           then hy else emptyHyper))
termination_by structural _ _ options _ => options

/-- The params loop of `getEntityNode`: a string value is assigned into the
simple-params object; an object value matching one of the three option
guards is built recursively and appended to `children`; an object matching
no guard is skipped. -/
def buildEntries : List (String × ConfigValue) → List String →
    List (String × String) → List EntityNode →
    Except String (List (String × String) × List EntityNode)
  | [], _, sp, cs => .ok (sp, cs)
  | (k, v) :: rest, anc, sp, cs =>
    match v with
    | .str s => buildEntries rest anc (objSet sp k s) cs
    | .cfg c =>
      if isAgentOptions c then
        match getEntityNode k EntityType.agent c anc with
        | .error e => .error e
        | .ok child => buildEntries rest anc sp (cs ++ [child])
      else if isToolOptions c then
        match getEntityNode k EntityType.tool c anc with
        | .error e => .error e
        | .ok child => buildEntries rest anc sp (cs ++ [child])
      else if isTextPromptOptions c then
        match getEntityNode k EntityType.prompt c anc with
        | .error e => .error e
        | .ok child => buildEntries rest anc sp (cs ++ [child])
      else buildEntries rest anc sp cs
termination_by structural entries _ _ _ => entries

end

/-- The entity type the guard chain of `buildEntries` assigns to a nested
configuration value. -/
def classifyValue (c : EntityConfig) : EntityType :=
  if isAgentOptions c then .agent else if isToolOptions c then .tool else .prompt

/-- A nested configuration value is a member of the declared `ParamsValue`
union exactly when `model` and `provider` are both present (an agent
options) or both absent (tool / text-prompt options). -/
def unionMember : ConfigValue → Bool
  | .str _ => true
  | .cfg c => c.hyper.model.isSome == c.hyper.provider.isSome

mutual

/-- No id repeats along any root-to-node path and no configuration takes
its own id as a param key: the condition under which construction succeeds. -/
def pathsOK : String → EntityConfig → List String → Bool
  | id, EntityConfig.mk _ _ ps _ _ _, anc =>
    !containsCfgKey id ps && !(anc.contains id) && pathsOKEntries ps (anc ++ [id])
termination_by structural _ c _ => c

/-- `pathsOK` over the entries of a params object. -/
def pathsOKEntries : List (String × ConfigValue) → List String → Bool
  | [], _ => true
  | (k, v) :: rest, anc =>
    (match v with
     | ConfigValue.str _ => true
     | ConfigValue.cfg c => pathsOK k c anc) && pathsOKEntries rest anc
termination_by structural entries _ => entries

end

/-- An `EntityResponseItem` of the /sync_entities response as consumed by
the overlay callback; every field may be `null`/absent at runtime. -/
structure EntityResponseItem where
  prompt : String
  model : Option String
  provider : Option String
  temperature : Option Rat
  maxTokens : Option Rat
  topP : Option Rat
  frequencyPenalty : Option Rat
  presencePenalty : Option Rat
  stopSequences : Option (List String)
  tools : Option (List String)
deriving DecidableEq

/-- The JS nullish-coalescing operator `a ?? b` on option values. -/
def jsNullish {α : Type _} : Option α → Option α → Option α
  | some x, _ => some x
  | none, b => b

mutual

/-- `updateEntityNodes` from src/src/agent.ts: structurally copy the tree
bottom-up, applying the callback to every node whose children have already
been updated. -/
def updateEntityNodes : EntityNode → (EntityNode → EntityNode) → EntityNode
  | EntityNode.mk i t mv nm ps pr cs hy, f =>
    f (EntityNode.mk i t mv nm ps pr (updateChildrenNodes cs f) hy)
termination_by structural n _ => n

/-- `updateEntityNodes` over a child list. -/
def updateChildrenNodes : List EntityNode → (EntityNode → EntityNode) → List EntityNode
  | [], _ => []
  | c :: rest, f => updateEntityNodes c f :: updateChildrenNodes rest f
termination_by structural cs _ => cs

end

/-- The per-node merge callback of `Hone.agent` (src/src/client.ts lines
120-134): the server prompt wins when truthy (present and non-empty), and
`model`, `temperature`, `maxTokens`, `topP`, `frequencyPenalty`,
`presencePenalty`, `stopSequences` are taken from the response item via
`??`; `provider` and `tools` are not mentioned by the callback and keep the
node's values. -/
def overlayAgentNode (entityMap : List (String × EntityResponseItem))
    (agentNode : EntityNode) : EntityNode :=
  match agentNode with
  | EntityNode.mk i t mv nm ps pr cs hy =>
    match lookupKey i entityMap with
    | none => EntityNode.mk i t mv nm ps pr cs hy
    | some r =>
      EntityNode.mk i t mv nm ps (if r.prompt = "" then pr else r.prompt) cs
        (Hyperparameters.mk (jsNullish r.model hy.model) hy.provider
          (jsNullish r.temperature hy.temperature)
          (jsNullish r.maxTokens hy.maxTokens)
          (jsNullish r.topP hy.topP)
          (jsNullish r.frequencyPenalty hy.frequencyPenalty)
          (jsNullish r.presencePenalty hy.presencePenalty)
          (jsNullish r.stopSequences hy.stopSequences)
          hy.tools)

/-- An `EntityRequestItem` of the /sync_entities request. -/
structure EntityRequestItem where
  id : String
  type : EntityType
  name : Option String
  majorVersion : Option Nat
  prompt : String
  paramKeys : List String
  childrenIds : List String
  childrenTypes : List EntityType
  model : Option String
  provider : Option String
  temperature : Option Rat
  maxTokens : Option Rat
  topP : Option Rat
  frequencyPenalty : Option Rat
  presencePenalty : Option Rat
  stopSequences : Option (List String)
  tools : Option (List String)
deriving DecidableEq

/-- `formatNode` inside `formatEntityRequest` (src/src/agent.ts): the
serializable record of one node — param keys are the literal param keys
followed by the children ids; children ids and types in child order. -/
def formatNode (n : EntityNode) : EntityRequestItem :=
  EntityRequestItem.mk n.id n.type n.name n.majorVersion n.prompt
    (n.params.map Prod.fst ++ n.children.map EntityNode.id)
    (n.children.map EntityNode.id) (n.children.map EntityNode.type)
    n.hyper.model n.hyper.provider n.hyper.temperature n.hyper.maxTokens
    n.hyper.topP n.hyper.frequencyPenalty n.hyper.presencePenalty
    n.hyper.stopSequences n.hyper.tools

/-- The `entities` payload of an `EntityRequest`. -/
structure EntityRequest where
  rootId : String
  rootType : EntityType
  map : List (String × EntityRequestItem)
deriving DecidableEq

/-- `formatEntityRequest` from src/src/agent.ts: pre-order traversal of the
tree, assigning `map[node.id] = formatNode(node)` for each visited node in
visit order (a later visit with the same id overwrites the earlier entry). -/
def formatEntityRequest (n : EntityNode) : EntityRequest :=
  EntityRequest.mk n.id n.type
    ((visitList n).foldl (fun m cur => objSet m cur.id (formatNode cur)) [])

/-- A template token: a run of text free of brace characters, or a
placeholder over a word identifier. -/
inductive Tok where
  | text (t : List Char)
  | ph (w : List Char)
deriving DecidableEq

/-- Rendering a token back to characters. -/
def Tok.render : Tok → List Char
  | .text t => t
  | .ph w => patChars w

/-- Well-formedness: text tokens contain no brace characters, placeholder
identifiers are nonempty words. -/
def Tok.wf : Tok → Bool
  | .text t => t.all (fun c => !(c = lbChar || c = rbChar))
  | .ph w => !w.isEmpty && w.all isWordChar

/-- Rendering a token list. -/
def renderToks (ts : List Tok) : List Char :=
  (ts.map Tok.render).flatten

/-- The effect of one key substitution on a token: the key's placeholder
becomes the (verbatim) value text, everything else is unchanged. -/
def tokSubst (k : List Char) (v : List Char) : Tok → Tok
  | .text t => .text t
  | .ph w => if w = k then .text v else .ph w

/-- First value in entry order whose key has the given character list. -/
def lookupCh (w : List Char) : List (String × String) → Option String
  | [] => none
  | (k, v) :: rest => if k.data = w then some v else lookupCh w rest

/-- The combined effect of a whole params map on a token: a placeholder is
replaced by the value of the first entry in entry order whose key matches. -/
def resolveTok (params : List (String × String)) : Tok → Tok
  | .text t => .text t
  | .ph w =>
    match lookupCh w params with
    | some v => .text v.data
    | none => .ph w

/-- A string contains no dollar character (so the JS replacement string
machinery inserts it verbatim). -/
def noDollar (s : List Char) : Bool :=
  s.all (fun c => !(c = dollarChar))

/-- A string contains no brace character. -/
def noBrace (s : List Char) : Bool :=
  s.all (fun c => !(c = lbChar || c = rbChar))

/-- A key is a word identifier: nonempty, all word characters. -/
def isIdent (k : List Char) : Bool :=
  !k.isEmpty && k.all isWordChar

/-- A key whose unescaped pattern compiles to exactly its literal
placeholder: a nonempty word identifier with at least one non-digit
character (an all-digit key would form a brace quantifier instead, see
`patParse`). -/
def litKey (k : List Char) : Bool :=
  isIdent k && !(k.all isDigitCh)

/-- Occurrence of a nonempty pattern as a contiguous substring. -/
def occursIn (pat : List Char) : List Char → Bool
  | [] => pat.isEmpty
  | c :: cs => pat.isPrefixOf (c :: cs) || occursIn pat cs

/-- `Except.isOk` as a plain function. -/
def exceptOk {ε α : Type _} : Except ε α → Bool
  | .ok _ => true
  | .error _ => false

/-- Decidable equality of evaluation results. -/
instance {ε α : Type _} [DecidableEq ε] [DecidableEq α] : DecidableEq (Except ε α) :=
  fun a b =>
    match a, b with
    | .ok x, .ok y =>
      if h : x = y then isTrue (by rw [h]) else
        isFalse (by intro hh; cases hh; exact h rfl)
    | .ok _, .error _ => isFalse (fun hh => Except.noConfusion hh)
    | .error _, .ok _ => isFalse (fun hh => Except.noConfusion hh)
    | .error x, .error y =>
      if h : x = y then isTrue (by rw [h]) else
        isFalse (by intro hh; cases hh; exact h rfl)

/-- Invariant of the memo table during a memoized evaluation run: every
entry keyed `i` records the naive evaluation result of a node of the tree
whose id is `i`. -/
def coherentMemo (root : EntityNode) (memo : List (String × String)) : Prop :=
  ∀ i v, lookupKey i memo = some v →
    ∃ m, m ∈ visitList root ∧ m.id = i ∧ evalNaive m = Except.ok v

/-- A leaf node used to exercise memoized evaluation with a shared child. -/
def c6child : EntityNode :=
  EntityNode.mk "c" EntityType.prompt none none [] "hi" [] emptyHyper

/-- A root whose two children are the same node object, so its id `c`
occurs twice in the traversal. -/
def c6root : EntityNode :=
  EntityNode.mk "r" EntityType.agent none none [] "hello" [c6child, c6child]
    emptyHyper

@[simp] theorem EntityNode.id_mk (i t mv nm ps pr cs hy) :
    (EntityNode.mk i t mv nm ps pr cs hy).id = i := rfl

@[simp] theorem EntityNode.type_mk (i t mv nm ps pr cs hy) :
    (EntityNode.mk i t mv nm ps pr cs hy).type = t := rfl

@[simp] theorem EntityNode.params_mk (i t mv nm ps pr cs hy) :
    (EntityNode.mk i t mv nm ps pr cs hy).params = ps := rfl

@[simp] theorem EntityNode.prompt_mk (i t mv nm ps pr cs hy) :
    (EntityNode.mk i t mv nm ps pr cs hy).prompt = pr := rfl

@[simp] theorem EntityNode.children_mk (i t mv nm ps pr cs hy) :
    (EntityNode.mk i t mv nm ps pr cs hy).children = cs := rfl

@[simp] theorem EntityNode.hyper_mk (i t mv nm ps pr cs hy) :
    (EntityNode.mk i t mv nm ps pr cs hy).hyper = hy := rfl

@[simp] theorem EntityNode.majorVersion_mk (i t mv nm ps pr cs hy) :
    (EntityNode.mk i t mv nm ps pr cs hy).majorVersion = mv := rfl

@[simp] theorem EntityNode.name_mk (i t mv nm ps pr cs hy) :
    (EntityNode.mk i t mv nm ps pr cs hy).name = nm := rfl

theorem isPrefixOf_iff_exists {p s : List Char} :
    p.isPrefixOf s = true ↔ ∃ r, s = p ++ r := by
  induction p generalizing s with
  | nil => simp [List.isPrefixOf]
  | cons a p ih =>
    cases s with
    | nil => simp [List.isPrefixOf]
    | cons b s =>
      simp only [List.isPrefixOf, Bool.and_eq_true, beq_iff_eq, List.cons_append,
        List.cons.injEq, ih]
      constructor
      · rintro ⟨rfl, r, rfl⟩; exact ⟨r, rfl, rfl⟩
      · rintro ⟨r, rfl, rfl⟩; exact ⟨rfl, r, rfl⟩

theorem isPrefixOf_append_self (p r : List Char) : p.isPrefixOf (p ++ r) = true :=
  isPrefixOf_iff_exists.mpr ⟨r, rfl⟩

theorem getSubstitution_noDollar (repl : List Char) (matched before after : List Char)
    (h : noDollar repl = true) : getSubstitution repl matched before after = repl := by
  induction repl with
  | nil => rfl
  | cons c rest ih =>
    have hc : ¬(c = dollarChar) := by
      simp [noDollar, List.all_cons] at h
      simpa using h.1
    cases rest with
    | nil => rfl
    | cons d rest' =>
      have h' : noDollar (d :: rest') = true := by
        simp [noDollar, List.all_cons] at h ⊢
        exact h.2
      simp only [getSubstitution, if_neg hc]
      rw [ih h']

theorem replaceAux_noDollar (p0 : Char) (pt repl : List Char)
    (h : noDollar repl = true) :
    ∀ (fuel : Nat) (before rest : List Char),
      replaceAux p0 pt repl fuel before rest = specSPRAux p0 pt repl fuel rest := by
  intro fuel
  induction fuel with
  | zero => intro before rest; rfl
  | succ n ih =>
    intro before rest
    cases rest with
    | nil => rfl
    | cons c cs =>
      show (if (p0 :: pt).isPrefixOf (c :: cs) = true then _ else _) =
        (if (p0 :: pt).isPrefixOf (c :: cs) = true then _ else _)
      by_cases hp : (p0 :: pt).isPrefixOf (c :: cs) = true
      · rw [if_pos hp, if_pos hp, getSubstitution_noDollar _ _ _ _ h, ih]
      · rw [if_neg hp, if_neg hp, ih]

theorem replaceGlobal_noDollar (p0 : Char) (pt repl : List Char)
    (h : noDollar repl = true) (before rest : List Char) :
    replaceGlobal p0 pt repl before rest = specSinglePassReplace p0 pt repl rest :=
  replaceAux_noDollar p0 pt repl h rest.length before rest

theorem plainChar_of_word (c : Char) (h : isWordChar c = true) : plainChar c = true := by
  simp only [isWordChar, Bool.or_eq_true, Bool.and_eq_true, decide_eq_true_eq,
    beq_iff_eq] at h
  simp only [plainChar, Bool.not_eq_true', Bool.or_eq_false_iff, decide_eq_false_iff_not]
  omega

theorem patParseAux_plain (fuel : Nat) (la : Option Char) (acc : List Char)
    (c : Char) (rest : List Char) (h : plainChar c = true) :
    patParseAux (fuel + 1) la acc (c :: rest) =
      patParseAux fuel (some c) (acc ++ [c]) rest := by
  simp only [plainChar, Bool.not_eq_true', Bool.or_eq_false_iff,
    decide_eq_false_iff_not] at h
  obtain ⟨⟨⟨⟨⟨⟨⟨⟨⟨⟨⟨h94, h36⟩, h92⟩, h46⟩, h42⟩, h43⟩, h63⟩, h40⟩, h41⟩, h91⟩, h124⟩,
    h123⟩ := h
  simp only [patParseAux]
  rw [if_neg h91, if_neg h41,
    if_neg (by simp [h94, h36, h92, h46, h42, h43, h63, h40, h124]), if_neg h123]

theorem patParseAux_plain_run : ∀ (cs : List Char) (fuel : Nat) (la : Option Char)
    (acc : List Char), cs.all plainChar = true → acc ≠ [] → cs.length < fuel →
    patParseAux fuel la acc cs = RegexShape.lit (acc ++ cs) := by
  intro cs
  induction cs with
  | nil =>
    intro fuel la acc _ hacc hf
    cases fuel with
    | zero => omega
    | succ f =>
      show (if acc.isEmpty then RegexShape.unmodelled else RegexShape.lit acc) = _
      rw [if_neg (fun hc => hacc (List.isEmpty_iff.mp hc)), List.append_nil]
  | cons c cs ih =>
    intro fuel la acc hall hacc hf
    cases fuel with
    | zero => omega
    | succ f =>
      simp only [List.all_cons, Bool.and_eq_true] at hall
      rw [patParseAux_plain f la acc c cs hall.1]
      rw [ih f (some c) (acc ++ [c]) hall.2 (by simp)
        (by simp only [List.length_cons] at hf; omega)]
      simp

theorem takeDropWhile_append_stop (p : Char → Bool) :
    ∀ (a b : List Char), a.dropWhile p ≠ [] →
      (a ++ b).takeWhile p = a.takeWhile p ∧
      (a ++ b).dropWhile p = a.dropWhile p ++ b := by
  intro a
  induction a with
  | nil => intro b h; exact absurd rfl h
  | cons x xs ih =>
    intro b h
    by_cases hx : p x = true
    · have h' : xs.dropWhile p ≠ [] := by
        rw [List.dropWhile_cons, if_pos hx] at h
        exact h
      obtain ⟨h1, h2⟩ := ih b h'
      constructor
      · show (x :: (xs ++ b)).takeWhile p = (x :: xs).takeWhile p
        rw [List.takeWhile_cons, if_pos hx, List.takeWhile_cons, if_pos hx, h1]
      · show (x :: (xs ++ b)).dropWhile p = (x :: xs).dropWhile p ++ b
        rw [List.dropWhile_cons, if_pos hx, List.dropWhile_cons, if_pos hx, h2]
    · constructor
      · show (x :: (xs ++ b)).takeWhile p = (x :: xs).takeWhile p
        rw [List.takeWhile_cons, if_neg hx, List.takeWhile_cons, if_neg hx]
      · show (x :: (xs ++ b)).dropWhile p = (x :: xs).dropWhile p ++ b
        rw [List.dropWhile_cons, if_neg hx, List.dropWhile_cons, if_neg hx]
        rfl

theorem dropWhile_head_not (p : Char → Bool) :
    ∀ (l : List Char) (c : Char) (rest : List Char),
      l.dropWhile p = c :: rest → p c = false := by
  intro l
  induction l with
  | nil => intro c rest h; exact absurd h (by simp)
  | cons x xs ih =>
    intro c rest h
    rw [List.dropWhile_cons] at h
    by_cases hx : p x = true
    · rw [if_pos hx] at h
      exact ih c rest h
    · rw [if_neg hx] at h
      injection h with h1 _
      rw [← h1]
      exact Bool.eq_false_iff.mpr hx

theorem patParseAux_step_lb (fuel : Nat) (la : Option Char) (acc : List Char)
    (rest : List Char) (h : rest.takeWhile isDigitCh = []) :
    patParseAux (fuel + 1) la acc (lbChar :: rest) =
      patParseAux fuel (some lbChar) (acc ++ [lbChar]) rest := by
  simp only [patParseAux]
  rw [if_neg (by decide), if_neg (by decide), if_neg (by decide), if_pos (by decide), h]
  rfl

theorem patParseAux_step_lb_fb (fuel : Nat) (acc : List Char)
    (rest : List Char) (d : Char) (rest2 : List Char)
    (h1 : ¬ rest.takeWhile isDigitCh = [])
    (h2 : rest.dropWhile isDigitCh = d :: rest2)
    (h3 : ¬ d.toNat = 125) (h4 : ¬ d.toNat = 44) :
    patParseAux (fuel + 1) (some lbChar) acc (lbChar :: rest) =
      patParseAux fuel (some lbChar) (acc ++ [lbChar]) rest := by
  simp only [patParseAux]
  rw [if_neg (by decide), if_neg (by decide), if_neg (by decide), if_pos (by decide),
    if_neg (fun hc => h1 (List.isEmpty_iff.mp hc)), h2]
  show (if d.toNat = 125 then
      patParseAux fuel none
        (acc.dropLast ++ List.replicate (digitsToNat (rest.takeWhile isDigitCh)) lbChar)
        rest2
    else if d.toNat = 44 then RegexShape.unmodelled
    else patParseAux fuel (some lbChar) (acc ++ [lbChar]) rest) =
    patParseAux fuel (some lbChar) (acc ++ [lbChar]) rest
  rw [if_neg h3, if_neg h4]

theorem patParse_word (k : List Char) (hne : k ≠ []) (hw : k.all isWordChar = true)
    (hnd : k.all isDigitCh = false) :
    patParse (patChars k) = RegexShape.lit (patChars k) := by
  have hplain : (k ++ [rbChar, rbChar]).all plainChar = true := by
    rw [List.all_append, Bool.and_eq_true]
    refine ⟨?_, by decide⟩
    rw [List.all_eq_true] at hw ⊢
    exact fun c hc => plainChar_of_word c (hw c hc)
  have hlen1 : patParse (patChars k) =
      patParseAux (k.length + 3 + 1 + 1) none []
        (lbChar :: lbChar :: (k ++ [rbChar, rbChar])) := by
    show patParseAux ((patChars k).length + 1) none [] (patChars k) = _
    have hl : (patChars k).length + 1 = k.length + 3 + 1 + 1 := by
      simp [patChars]
    rw [hl]
    rfl
  rw [hlen1]
  rw [patParseAux_step_lb (k.length + 3 + 1) none [] (lbChar :: (k ++ [rbChar, rbChar]))
    (by rw [List.takeWhile_cons, if_neg (by decide)])]
  rcases k with _ | ⟨c0, k'⟩
  · exact absurd rfl hne
  by_cases hd0 : isDigitCh c0 = true
  · have hna : (c0 :: k').dropWhile isDigitCh ≠ [] := by
      intro hnil
      rw [List.dropWhile_eq_nil_iff] at hnil
      have hall : (c0 :: k').all isDigitCh = true :=
        List.all_eq_true.mpr (fun c hc => hnil c hc)
      rw [hall] at hnd
      exact Bool.noConfusion hnd
    obtain ⟨d, rest2, hdrop⟩ : ∃ d rest2, (c0 :: k').dropWhile isDigitCh = d :: rest2 := by
      rcases hdw : (c0 :: k').dropWhile isDigitCh with _ | ⟨d, r⟩
      · exact absurd hdw hna
      · exact ⟨d, r, rfl⟩
    obtain ⟨ht, hd2⟩ := takeDropWhile_append_stop isDigitCh (c0 :: k') [rbChar, rbChar] hna
    have hdmem : d ∈ (c0 :: k') := by
      have hmem : d ∈ (c0 :: k').dropWhile isDigitCh := by
        rw [hdrop]
        exact List.mem_cons_self _ _
      exact (List.dropWhile_sublist _).subset hmem
    have hdword : isWordChar d = true := (List.all_eq_true.mp hw) d hdmem
    have h125 : ¬ d.toNat = 125 := by
      simp only [isWordChar, Bool.or_eq_true, Bool.and_eq_true, decide_eq_true_eq,
        beq_iff_eq] at hdword
      omega
    have h44 : ¬ d.toNat = 44 := by
      simp only [isWordChar, Bool.or_eq_true, Bool.and_eq_true, decide_eq_true_eq,
        beq_iff_eq] at hdword
      omega
    rw [patParseAux_step_lb_fb _ _ _ d (rest2 ++ [rbChar, rbChar])
      (by
        rw [ht]
        intro hnil
        rw [List.takeWhile_cons, if_pos hd0] at hnil
        exact List.noConfusion hnil)
      (by rw [hd2, hdrop]; rfl) h125 h44]
    rw [patParseAux_plain_run ((c0 :: k') ++ [rbChar, rbChar]) _ _ _ hplain (by simp)
      (by simp only [List.length_append, List.length_cons, List.length_nil]; omega)]
    simp [patChars]
  · rw [patParseAux_step_lb _ _ _ _
      (by
        show ((c0 :: (k' ++ [rbChar, rbChar])).takeWhile isDigitCh) = []
        rw [List.takeWhile_cons, if_neg hd0])]
    rw [patParseAux_plain_run ((c0 :: k') ++ [rbChar, rbChar]) _ _ _ hplain (by simp)
      (by simp only [List.length_append, List.length_cons, List.length_nil]; omega)]
    simp [patChars]

theorem insertParams_lit (prompt : String) (params : List (String × String))
    (h : ∀ kv ∈ params, litKey (kv.1 : String).data = true) :
    insertParamsIntoPrompt prompt params = .ok (substLiteral prompt params) := by
  induction params generalizing prompt with
  | nil => rfl
  | cons kv rest ih =>
    have hk := h kv (List.mem_cons_self kv rest)
    simp only [litKey, isIdent, Bool.and_eq_true, Bool.not_eq_true',
      Bool.not_eq_eq_eq_not, Bool.not_true, List.isEmpty_eq_false_iff_exists_mem] at hk
    obtain ⟨⟨hne, hword⟩, hdig⟩ := hk
    have hne' : (kv.1 : String).data ≠ [] := by
      obtain ⟨x, hx⟩ := hne
      intro hcon
      rw [hcon] at hx
      exact absurd hx (by simp)
    show (match patParse (patChars kv.1.data) with
      | RegexShape.lit (p0 :: ptail) =>
        insertParamsIntoPrompt ⟨replaceGlobal p0 ptail kv.2.data [] prompt.data⟩ rest
      | RegexShape.lit [] => Except.error EvalError.unmodelled
      | RegexShape.err => Except.error EvalError.regexSyntax
      | RegexShape.unmodelled => Except.error EvalError.unmodelled) = _
    rw [patParse_word kv.1.data hne' hword hdig]
    show insertParamsIntoPrompt
        ⟨replaceGlobal lbChar (lbChar :: (kv.1.data ++ [rbChar, rbChar]))
          kv.2.data [] prompt.data⟩ rest = _
    rw [ih _ (fun x hx => h x (List.mem_cons_of_mem kv hx))]
    rfl

theorem insertParams_some_ok (prompt : String) (params : List (String × String))
    (h : ∀ kv ∈ params, litShape (patParse (patChars (kv.1 : String).data)) = true) :
    ∃ r, insertParamsIntoPrompt prompt params = .ok r := by
  induction params generalizing prompt with
  | nil => exact ⟨prompt, rfl⟩
  | cons kv rest ih =>
    have hk := h kv (List.mem_cons_self kv rest)
    show ∃ r, (match patParse (patChars kv.1.data) with
      | RegexShape.lit (p0 :: ptail) =>
        insertParamsIntoPrompt ⟨replaceGlobal p0 ptail kv.2.data [] prompt.data⟩ rest
      | RegexShape.lit [] => Except.error EvalError.unmodelled
      | RegexShape.err => Except.error EvalError.regexSyntax
      | RegexShape.unmodelled => Except.error EvalError.unmodelled) = .ok r
    rcases hp : patParse (patChars kv.1.data) with s | _ | _
    · rcases s with _ | ⟨p0, pt⟩
      · rw [hp] at hk
        exact absurd hk (by simp [litShape])
      · exact ih _ (fun x hx => h x (List.mem_cons_of_mem kv hx))
    · rw [hp] at hk
      exact absurd hk (by simp [litShape])
    · rw [hp] at hk
      exact absurd hk (by simp [litShape])

/-- The substitution fold on the literal fragment: each key whose value is
`$`-free is expanded by an exact single-pass verbatim global replacement of
its literal placeholder. -/
theorem substLiteral_spr (prompt : String) (params : List (String × String))
    (h : ∀ kv ∈ params, noDollar kv.2.data = true) :
    substLiteral prompt params =
      params.foldl
        (fun acc kv =>
          ⟨specSinglePassReplace lbChar (lbChar :: (kv.1.data ++ [rbChar, rbChar]))
            kv.2.data acc.data⟩)
        prompt := by
  induction params generalizing prompt with
  | nil => rfl
  | cons kv rest ih =>
    simp only [substLiteral, List.foldl_cons] at *
    rw [ih _ (fun x hx => h x (List.mem_cons_of_mem kv hx))]
    congr 1
    show jsReplaceAll prompt ⟨patChars kv.1.data⟩ kv.2 = _
    simp only [jsReplaceAll, patChars]
    congr 1
    exact replaceGlobal_noDollar _ _ _ (h kv (List.mem_cons_self kv rest)) [] prompt.data

/-- C1 (amended): on keys that are word identifiers with at least one
non-digit character — exactly the keys whose unescaped pattern compiles to
the literal placeholder — `insertParamsIntoPrompt` processes the entries
sequentially in entry order, and each entry whose value contains no `$`
character is expanded by an exact single-pass global replacement of the
literal placeholder of its key with the value inserted verbatim (no
re-scanning of that value within the same key's pass).  Later entries act
on the full accumulated string, so they re-scan text inserted for earlier
entries; values with `$`-sequences are reinterpreted by the replacement
machinery (see the counterexample); and all-digit or non-word keys compile
to different regexes entirely (brace quantifiers, or SyntaxErrors). -/
theorem claim_C1_amended (prompt : String) (params : List (String × String))
    (hk : ∀ kv ∈ params, litKey (kv.1 : String).data = true)
    (h : ∀ kv ∈ params, noDollar kv.2.data = true) :
    insertParamsIntoPrompt prompt params =
      .ok (params.foldl
        (fun acc kv =>
          ⟨specSinglePassReplace lbChar (lbChar :: (kv.1.data ++ [rbChar, rbChar]))
            kv.2.data acc.data⟩)
        prompt) := by
  rw [insertParams_lit prompt params hk]
  exact congrArg Except.ok (substLiteral_spr prompt params h)

/-- C1 (witness for the amended theorem): on the template `(ph "name")`
with the single entry `name := "Alice"` the hypotheses hold and the
equation applies. -/
theorem claim_C1_amended_witness :
    (∀ kv ∈ [("name", "Alice")], litKey (kv.1 : String).data = true) ∧
    (∀ kv ∈ [("name", "Alice")], noDollar (kv.2 : String).data = true) ∧
      insertParamsIntoPrompt ⟨patChars "name".data⟩ [("name", "Alice")] =
        .ok ([("name", "Alice")].foldl
          (fun acc kv =>
            ⟨specSinglePassReplace lbChar (lbChar :: (kv.1.data ++ [rbChar, rbChar]))
              kv.2.data acc.data⟩)
          ⟨patChars "name".data⟩) :=
  ⟨by decide, by decide,
    claim_C1_amended ⟨patChars "name".data⟩ [("name", "Alice")] (by decide) (by decide)⟩

/-- C1 (counterexample to the claim as stated): the value `"$&-x"` for key
`name` is not inserted as-is — the `$&` is reinterpreted as the matched
substring, so substituting into the template `(ph "name")` yields the
placeholder followed by `-x` instead of the value. -/
theorem claim_C1_counterexample :
    insertParamsIntoPrompt ⟨patChars "name".data⟩ [("name", "$&-x")] =
        .ok ⟨patChars "name".data ++ "-x".data⟩ ∧
      (⟨patChars "name".data ++ "-x".data⟩ : String) ≠ "$&-x" := by
  constructor
  · decide
  · decide

theorem isWordChar_lb : isWordChar lbChar = false := by decide

theorem isWordChar_rb : isWordChar rbChar = false := by decide

theorem rb_ne_lb : rbChar ≠ lbChar := by decide

theorem takeWhile_append_drop (p : Char → Bool) (l : List Char) :
    l.takeWhile p ++ l.drop (l.takeWhile p).length = l := by
  induction l with
  | nil => rfl
  | cons c cs ih =>
    by_cases hc : p c = true
    · simp only [List.takeWhile_cons, hc, if_true, List.length_cons, List.drop_succ_cons,
        List.cons_append, List.cons.injEq, true_and]
      exact ih
    · simp only [List.takeWhile_cons, hc]
      simp

theorem takeWhile_all (p : Char → Bool) (l : List Char) :
    (l.takeWhile p).all p = true := by
  induction l with
  | nil => rfl
  | cons c cs ih =>
    by_cases hc : p c = true
    · simp [List.takeWhile_cons, hc, ih]
    · simp [List.takeWhile_cons, hc]

theorem takeWhile_all_append (p : Char → Bool) (w : List Char) (d : Char) (t : List Char)
    (hall : w.all p = true) (hd : p d = false) :
    (w ++ d :: t).takeWhile p = w := by
  induction w with
  | nil => simp [List.takeWhile_cons, hd]
  | cons a w ih =>
    simp only [List.all_cons, Bool.and_eq_true] at hall
    simp only [List.cons_append, List.takeWhile_cons, hall.1, if_true]
    rw [ih hall.2]

theorem scanAux_succ (fuel : Nat) (c1 c2 : Char) (rest : List Char) :
    scanAux (fuel + 1) (c1 :: c2 :: rest) =
      if c1 = lbChar ∧ c2 = lbChar then
        match rest.drop (rest.takeWhile isWordChar).length with
        | d1 :: d2 :: rest2 =>
          if (rest.takeWhile isWordChar) ≠ [] ∧ d1 = rbChar ∧ d2 = rbChar then
            rest.takeWhile isWordChar :: scanAux fuel rest2
          else scanAux fuel (c2 :: rest)
        | _ => scanAux fuel (c2 :: rest)
      else scanAux fuel (c2 :: rest) := rfl

theorem scanAux_step_nolb (fuel : Nat) (c1 c2 : Char) (rest : List Char)
    (h : ¬(c1 = lbChar ∧ c2 = lbChar)) :
    scanAux (fuel + 1) (c1 :: c2 :: rest) = scanAux fuel (c2 :: rest) := by
  rw [scanAux_succ, if_neg h]

theorem scanAux_step_match (fuel : Nat) (w rest : List Char)
    (hw : w ≠ []) (hall : w.all isWordChar = true) :
    scanAux (fuel + 1) (lbChar :: lbChar :: (w ++ rbChar :: rbChar :: rest)) =
      w :: scanAux fuel rest := by
  rw [scanAux_succ, if_pos ⟨rfl, rfl⟩]
  have ht : (w ++ rbChar :: rbChar :: rest).takeWhile isWordChar = w :=
    takeWhile_all_append _ _ _ _ hall isWordChar_rb
  rw [ht, List.drop_left]
  simp [hw]

theorem scanAux_congr : ∀ (f1 f2 : Nat) (s : List Char),
    s.length ≤ f1 → s.length ≤ f2 → scanAux f1 s = scanAux f2 s := by
  intro f1
  induction f1 with
  | zero =>
    intro f2 s h1 h2
    have hs : s = [] := by cases s with
      | nil => rfl
      | cons c cs => simp at h1
    subst hs
    cases f2 <;> rfl
  | succ n ih =>
    intro f2 s h1 h2
    cases s with
    | nil => cases f2 <;> rfl
    | cons c1 s' =>
      cases s' with
      | nil =>
        cases f2 with
        | zero => simp at h2
        | succ m => rfl
      | cons c2 rest =>
        cases f2 with
        | zero => simp at h2
        | succ m =>
          simp only [List.length_cons] at h1 h2
          rw [scanAux_succ, scanAux_succ]
          by_cases hb : c1 = lbChar ∧ c2 = lbChar
          · rw [if_pos hb, if_pos hb]
            rcases hr : rest.drop (rest.takeWhile isWordChar).length with _ | ⟨d1, tl⟩
            · exact ih m (c2 :: rest) (by simp; omega) (by simp; omega)
            · rcases tl with _ | ⟨d2, rest2⟩
              · exact ih m (c2 :: rest) (by simp; omega) (by simp; omega)
              · have hlen := congrArg List.length hr
                simp only [List.length_drop, List.length_cons] at hlen
                show (if (rest.takeWhile isWordChar) ≠ [] ∧ d1 = rbChar ∧ d2 = rbChar then
                    rest.takeWhile isWordChar :: scanAux n rest2
                  else scanAux n (c2 :: rest)) =
                  (if (rest.takeWhile isWordChar) ≠ [] ∧ d1 = rbChar ∧ d2 = rbChar then
                    rest.takeWhile isWordChar :: scanAux m rest2
                  else scanAux m (c2 :: rest))
                by_cases hc : (rest.takeWhile isWordChar) ≠ [] ∧ d1 = rbChar ∧ d2 = rbChar
                · rw [if_pos hc, if_pos hc]
                  have := ih m rest2 (by omega) (by omega)
                  rw [this]
                · rw [if_neg hc, if_neg hc]
                  exact ih m (c2 :: rest) (by simp; omega) (by simp; omega)
          · rw [if_neg hb, if_neg hb]
            exact ih m (c2 :: rest) (by simp; omega) (by simp; omega)

theorem word_run_inj : ∀ (w1 w2 r1 r2 : List Char), w1.all isWordChar = true →
    w2.all isWordChar = true →
    w1 ++ rbChar :: r1 = w2 ++ rbChar :: r2 → w1 = w2 ∧ r1 = r2 := by
  intro w1
  induction w1 with
  | nil =>
    intro w2 r1 r2 _ hall2 heq
    cases w2 with
    | nil => simp at heq; exact ⟨rfl, heq⟩
    | cons b w2' =>
      simp only [List.nil_append, List.cons_append, List.cons.injEq] at heq
      simp only [List.all_cons, Bool.and_eq_true] at hall2
      rw [← heq.1] at hall2
      rw [isWordChar_rb] at hall2
      exact absurd hall2.1 (by simp)
  | cons a w1' ih =>
    intro w2 r1 r2 hall1 hall2 heq
    simp only [List.all_cons, Bool.and_eq_true] at hall1
    cases w2 with
    | nil =>
      simp only [List.cons_append, List.nil_append, List.cons.injEq] at heq
      rw [heq.1] at hall1
      rw [isWordChar_rb] at hall1
      exact absurd hall1.1 (by simp)
    | cons b w2' =>
      simp only [List.cons_append, List.cons.injEq] at heq
      simp only [List.all_cons, Bool.and_eq_true] at hall2
      obtain ⟨hw, hr⟩ := ih w2' r1 r2 hall1.2 hall2.2 heq.2
      exact ⟨by rw [heq.1, hw], hr⟩

theorem word_run_decomp : ∀ (wm pre2 rest2 tail : List Char), wm.all isWordChar = true →
    wm ++ rbChar :: rbChar :: rest2 = pre2 ++ lbChar :: lbChar :: tail →
    ∃ mid, pre2 = wm ++ rbChar :: rbChar :: mid ∧ rest2 = mid ++ lbChar :: lbChar :: tail := by
  intro wm
  induction wm with
  | nil =>
    intro pre2 rest2 tail _ heq
    cases pre2 with
    | nil =>
      simp only [List.nil_append, List.cons.injEq] at heq
      exact absurd heq.1 rb_ne_lb
    | cons q pre3 =>
      simp only [List.nil_append, List.cons_append, List.cons.injEq] at heq
      cases pre3 with
      | nil =>
        simp only [List.nil_append, List.cons.injEq] at heq
        exact absurd heq.2.1 rb_ne_lb
      | cons q2 pre4 =>
        simp only [List.cons_append, List.cons.injEq] at heq
        exact ⟨pre4, by simp [← heq.1, ← heq.2.1], heq.2.2⟩
  | cons a wm' ih =>
    intro pre2 rest2 tail hall heq
    simp only [List.all_cons, Bool.and_eq_true] at hall
    cases pre2 with
    | nil =>
      simp only [List.cons_append, List.nil_append, List.cons.injEq] at heq
      rw [heq.1, isWordChar_lb] at hall
      exact absurd hall.1 (by simp)
    | cons b pre3 =>
      simp only [List.cons_append, List.cons.injEq] at heq
      obtain ⟨mid, hp, hr⟩ := ih pre3 rest2 tail hall.2 heq.2
      exact ⟨mid, by simp [← heq.1, hp], hr⟩

theorem match_front_decomp (wm rest2 pre tail : List Char)
    (hwm : wm ≠ []) (hall : wm.all isWordChar = true)
    (heq : lbChar :: lbChar :: (wm ++ rbChar :: rbChar :: rest2) =
      pre ++ lbChar :: lbChar :: tail) :
    (pre = [] ∧ wm ++ rbChar :: rbChar :: rest2 = tail) ∨
      ∃ mid, pre = lbChar :: lbChar :: (wm ++ rbChar :: rbChar :: mid) ∧
        rest2 = mid ++ lbChar :: lbChar :: tail := by
  cases pre with
  | nil =>
    simp only [List.nil_append, List.cons.injEq] at heq
    exact Or.inl ⟨rfl, heq.2.2⟩
  | cons p1 pre1 =>
    simp only [List.cons_append, List.cons.injEq] at heq
    cases pre1 with
    | nil =>
      simp only [List.nil_append, List.cons.injEq] at heq
      obtain ⟨-, h2⟩ := heq
      have h2' : wm ++ rbChar :: rbChar :: rest2 = lbChar :: tail := h2.2
      cases wm with
      | nil =>
        simp only [List.nil_append, List.cons.injEq] at h2'
        exact absurd h2'.1 rb_ne_lb
      | cons a wm' =>
        simp only [List.cons_append, List.cons.injEq] at h2'
        simp only [List.all_cons, Bool.and_eq_true] at hall
        rw [h2'.1, isWordChar_lb] at hall
        exact absurd hall.1 (by simp)
    | cons p2 pre2 =>
      simp only [List.cons_append, List.cons.injEq] at heq
      obtain ⟨mid, hp, hr⟩ := word_run_decomp wm pre2 rest2 tail hall heq.2.2
      exact Or.inr ⟨mid, by simp [← heq.1, ← heq.2.1, hp], hr⟩

theorem scanAux_complete : ∀ (f : Nat) (s pre w post : List Char), s.length ≤ f →
    s = pre ++ lbChar :: lbChar :: (w ++ rbChar :: rbChar :: post) →
    w ≠ [] → w.all isWordChar = true → w ∈ scanAux f s := by
  intro f
  induction f with
  | zero =>
    intro s pre w post hlen hs hw hall
    subst hs
    simp [List.length_append] at hlen
  | succ n ih =>
    intro s pre w post hlen hs hw hall
    cases pre with
    | nil =>
      simp only [List.nil_append] at hs
      subst hs
      rw [scanAux_step_match n w post hw hall]
      exact List.mem_cons_self _ _
    | cons c1 pre' =>
      simp only [List.cons_append] at hs
      have hrest : ∃ c2 rest, s = c1 :: c2 :: rest ∧
          c2 :: rest = pre' ++ lbChar :: lbChar :: (w ++ rbChar :: rbChar :: post) := by
        cases pre' with
        | nil => exact ⟨lbChar, lbChar :: (w ++ rbChar :: rbChar :: post), by simpa using hs, rfl⟩
        | cons c2 pre2 => exact ⟨c2, pre2 ++ lbChar :: lbChar :: (w ++ rbChar :: rbChar :: post), by simpa using hs, rfl⟩
      obtain ⟨c2, rest, hs2, hdecomp⟩ := hrest
      subst hs2
      simp only [List.length_cons] at hlen
      by_cases hb : c1 = lbChar ∧ c2 = lbChar
      · obtain ⟨hc1, hc2⟩ := hb
        subst hc1; subst hc2
        rw [scanAux_succ, if_pos ⟨rfl, rfl⟩]
        rcases hr : rest.drop (rest.takeWhile isWordChar).length with _ | ⟨d1, tl⟩
        · exact ih (lbChar :: rest) pre' w post (by simp; omega) hdecomp hw hall
        · rcases tl with _ | ⟨d2, rest2⟩
          · exact ih (lbChar :: rest) pre' w post (by simp; omega) hdecomp hw hall
          · show w ∈ (if (rest.takeWhile isWordChar) ≠ [] ∧ d1 = rbChar ∧ d2 = rbChar then
                rest.takeWhile isWordChar :: scanAux n rest2
              else scanAux n (lbChar :: rest))
            by_cases hc : (rest.takeWhile isWordChar) ≠ [] ∧ d1 = rbChar ∧ d2 = rbChar
            · rw [if_pos hc]
              obtain ⟨htw, hd1, hd2⟩ := hc
              subst hd1; subst hd2
              have hsplit : rest = rest.takeWhile isWordChar ++ rbChar :: rbChar :: rest2 := by
                conv_lhs => rw [← takeWhile_append_drop isWordChar rest]
                rw [hr]
              have hdecomp2 : lbChar :: (rest.takeWhile isWordChar ++ rbChar :: rbChar :: rest2) =
                  pre' ++ lbChar :: lbChar :: (w ++ rbChar :: rbChar :: post) := by
                rw [← hsplit]; exact hdecomp
              have hfull : lbChar :: lbChar :: (rest.takeWhile isWordChar ++ rbChar :: rbChar :: rest2) =
                  (lbChar :: pre') ++ lbChar :: lbChar :: (w ++ rbChar :: rbChar :: post) := by
                rw [List.cons_append]
                exact congrArg (List.cons lbChar) hdecomp2
              have hfront := match_front_decomp (rest.takeWhile isWordChar) rest2
                (lbChar :: pre') (w ++ rbChar :: rbChar :: post) htw (takeWhile_all _ _) hfull
              rcases hfront with ⟨hnil, -⟩ | ⟨mid, -, hrest2⟩
              · exact absurd hnil (by simp)
              · have hlen2 : rest2.length ≤ n := by
                  have := congrArg List.length hsplit
                  simp [List.length_append] at this
                  omega
                exact List.mem_cons_of_mem _ (ih rest2 mid w post hlen2 hrest2 hw hall)
            · rw [if_neg hc]
              exact ih (lbChar :: rest) pre' w post (by simp; omega) hdecomp hw hall
      · rw [scanAux_step_nolb n c1 c2 rest hb]
        exact ih (c2 :: rest) pre' w post (by simp; omega) hdecomp hw hall

theorem scanAux_sound : ∀ (f : Nat) (s w : List Char), w ∈ scanAux f s →
    (∃ pre post, s = pre ++ lbChar :: lbChar :: (w ++ rbChar :: rbChar :: post)) ∧
      w ≠ [] ∧ w.all isWordChar = true := by
  intro f
  induction f with
  | zero => intro s w hw; simp [scanAux] at hw
  | succ n ih =>
    intro s w hw
    cases s with
    | nil => simp [scanAux] at hw
    | cons c1 s' =>
      cases s' with
      | nil => simp [scanAux] at hw
      | cons c2 rest =>
        by_cases hb : c1 = lbChar ∧ c2 = lbChar
        · obtain ⟨hc1, hc2⟩ := hb
          subst hc1; subst hc2
          rw [scanAux_succ, if_pos ⟨rfl, rfl⟩] at hw
          rcases hr : rest.drop (rest.takeWhile isWordChar).length with _ | ⟨d1, tl⟩
          · rw [hr] at hw
            obtain ⟨⟨pre, post, hdec⟩, hne, hall⟩ := ih (lbChar :: rest) w hw
            exact ⟨⟨lbChar :: pre, post, by simp [hdec]⟩, hne, hall⟩
          · rcases tl with _ | ⟨d2, rest2⟩
            · rw [hr] at hw
              obtain ⟨⟨pre, post, hdec⟩, hne, hall⟩ := ih (lbChar :: rest) w hw
              exact ⟨⟨lbChar :: pre, post, by simp [hdec]⟩, hne, hall⟩
            · rw [hr] at hw
              have hw' : w ∈ (if (rest.takeWhile isWordChar) ≠ [] ∧ d1 = rbChar ∧ d2 = rbChar then
                  rest.takeWhile isWordChar :: scanAux n rest2
                else scanAux n (lbChar :: rest)) := hw
              by_cases hc : (rest.takeWhile isWordChar) ≠ [] ∧ d1 = rbChar ∧ d2 = rbChar
              · rw [if_pos hc] at hw'
                obtain ⟨htw, hd1, hd2⟩ := hc
                subst hd1; subst hd2
                have hsplit : rest = rest.takeWhile isWordChar ++ rbChar :: rbChar :: rest2 := by
                  conv_lhs => rw [← takeWhile_append_drop isWordChar rest]
                  rw [hr]
                rcases List.mem_cons.mp hw' with rfl | hmem
                · refine ⟨⟨[], rest2, ?_⟩, htw, takeWhile_all _ _⟩
                  rw [List.nil_append]
                  conv_lhs => rw [hsplit]
                · obtain ⟨⟨pre, post, hdec⟩, hne, hall⟩ := ih rest2 w hmem
                  refine ⟨⟨lbChar :: lbChar :: (rest.takeWhile isWordChar ++ rbChar :: rbChar :: pre),
                    post, ?_⟩, hne, hall⟩
                  conv_lhs => rw [hsplit, hdec]
                  simp
              · rw [if_neg hc] at hw'
                obtain ⟨⟨pre, post, hdec⟩, hne, hall⟩ := ih (lbChar :: rest) w hw'
                exact ⟨⟨lbChar :: pre, post, by simp [hdec]⟩, hne, hall⟩
        · rw [scanAux_step_nolb n c1 c2 rest hb] at hw
          obtain ⟨⟨pre, post, hdec⟩, hne, hall⟩ := ih (c2 :: rest) w hw
          exact ⟨⟨c1 :: pre, post, by simp [hdec]⟩, hne, hall⟩

theorem scanPlaceholders_sound (s w : List Char) (hw : w ∈ scanPlaceholders s) :
    (∃ pre post, s = pre ++ lbChar :: lbChar :: (w ++ rbChar :: rbChar :: post)) ∧
      w ≠ [] ∧ w.all isWordChar = true :=
  scanAux_sound s.length s w hw

theorem scanPlaceholders_complete (s pre w post : List Char)
    (hs : s = pre ++ lbChar :: lbChar :: (w ++ rbChar :: rbChar :: post))
    (hw : w ≠ []) (hall : w.all isWordChar = true) : w ∈ scanPlaceholders s :=
  scanAux_complete s.length s pre w post (Nat.le_refl _) hs hw hall

theorem occursIn_decomp (pat : List Char) : ∀ (s : List Char),
    occursIn pat s = true ↔ ∃ a b, s = a ++ pat ++ b := by
  intro s
  induction s with
  | nil =>
    simp only [occursIn, List.isEmpty_iff]
    constructor
    · intro h; exact ⟨[], [], by simp [h]⟩
    · rintro ⟨a, b, hb⟩
      rcases List.append_eq_nil.mp (List.append_eq_nil.mp hb.symm).1 with ⟨-, h2⟩
      exact h2
  | cons c cs ih =>
    simp only [occursIn, Bool.or_eq_true, ih]
    constructor
    · rintro (hp | ⟨a, b, rfl⟩)
      · obtain ⟨r, hr⟩ := isPrefixOf_iff_exists.mp hp
        exact ⟨[], r, by simp [hr]⟩
      · exact ⟨c :: a, b, by simp⟩
    · rintro ⟨a, b, hab⟩
      cases a with
      | nil =>
        left
        exact isPrefixOf_iff_exists.mpr ⟨b, by simpa using hab⟩
      | cons a0 a' =>
        right
        simp only [List.cons_append, List.cons.injEq] at hab
        exact ⟨a', b, hab.2⟩

theorem replaceAux_id (p0 : Char) (pt repl : List Char) :
    ∀ (fuel : Nat) (before s : List Char), s.length ≤ fuel →
      occursIn (p0 :: pt) s = false → replaceAux p0 pt repl fuel before s = s := by
  intro fuel
  induction fuel with
  | zero =>
    intro before s hlen hocc
    cases s with
    | nil => rfl
    | cons c cs => simp at hlen
  | succ n ih =>
    intro before s hlen hocc
    cases s with
    | nil => rfl
    | cons c cs =>
      simp only [occursIn, Bool.or_eq_false_iff] at hocc
      simp only [List.length_cons] at hlen
      show (if (p0 :: pt).isPrefixOf (c :: cs) = true then _ else _) = _
      rw [if_neg (by simp [hocc.1]), ih (before ++ [c]) cs (by omega) hocc.2]

theorem replaceGlobal_id (p0 : Char) (pt repl before s : List Char)
    (hocc : occursIn (p0 :: pt) s = false) :
    replaceGlobal p0 pt repl before s = s :=
  replaceAux_id p0 pt repl s.length before s (Nat.le_refl _) hocc

theorem not_occurs_of_scan_empty (s k : List Char)
    (hscan : scanPlaceholders s = []) (hid : isIdent k = true) :
    occursIn (patChars k) s = false := by
  by_contra hocc
  rw [Bool.not_eq_false] at hocc
  obtain ⟨a, b, hab⟩ := (occursIn_decomp (patChars k) s).mp hocc
  simp only [isIdent, Bool.and_eq_true] at hid
  have hne : k ≠ [] := by
    intro hk
    rw [hk] at hid
    simp at hid
  have hmem : k ∈ scanPlaceholders s := by
    apply scanPlaceholders_complete s a k b _ hne hid.2
    rw [hab]
    simp [patChars]
  rw [hscan] at hmem
  simp at hmem

theorem insertParams_id (pr : String) (ps : List (String × String))
    (h : ∀ kv ∈ ps, occursIn (patChars kv.1.data) pr.data = false) :
    substLiteral pr ps = pr := by
  induction ps with
  | nil => rfl
  | cons kv rest ih =>
    show substLiteral (jsReplaceAll pr ⟨patChars kv.1.data⟩ kv.2) rest = pr
    have h1 : jsReplaceAll pr ⟨patChars kv.1.data⟩ kv.2 = pr := by
      show (⟨replaceGlobal lbChar (lbChar :: (kv.1.data ++ [rbChar, rbChar])) kv.2.data [] pr.data⟩ : String) = pr
      rw [replaceGlobal_id _ _ _ _ _ (h kv (List.mem_cons_self kv rest))]
    rw [h1]
    exact ih (fun x hx => h x (List.mem_cons_of_mem kv hx))

/-- C9 (amended): a node whose template contains no placeholder (empty
match set of the placeholder regex) and which has no children evaluates to
its template unchanged, provided every literal param key is a word
identifier with a non-digit character (then the key's pattern compiles to
its literal placeholder, which cannot occur in the template, since such an
occurrence would be a placeholder match).  Without the proviso this fails:
non-word keys such as `a b` still compile to literal patterns the
validation regex cannot match (see the counterexample), and all-digit keys
compile to brace quantifiers that rewrite stray closing braces. -/
theorem claim_C9_amended (n : EntityNode)
    (hph : scanPlaceholders n.prompt.data = [])
    (hch : n.children = [])
    (hkeys : ∀ kv ∈ n.params, litKey kv.1.data = true) :
    evaluateEntity n = .ok n.prompt := by
  obtain ⟨i, t, mv, nm, ps, pr, cs, hy⟩ := n
  simp only [EntityNode.children_mk] at hch
  subst hch
  simp only [EntityNode.prompt_mk, EntityNode.params_mk] at hph hkeys ⊢
  have hval : validateEntityParams pr ps i t = none := by
    simp [validateEntityParams, hph]
  have hins : insertParamsIntoPrompt pr ps = .ok pr := by
    rw [insertParams_lit pr ps hkeys]
    refine congrArg Except.ok (insertParams_id pr ps (fun kv hkv =>
      not_occurs_of_scan_empty pr.data kv.1.data hph ?_))
    have hk := hkeys kv hkv
    simp only [litKey, Bool.and_eq_true] at hk
    exact hk.1
  simp only [evaluateEntity, evalNode, evalChildren, lookupKey, hval, hins]

/-- C9 (witness): a literal static template with an identifier param
evaluates to itself. -/
theorem claim_C9_witness :
    scanPlaceholders ("Static text" : String).data = [] ∧
      (EntityNode.mk "simple" EntityType.agent none none [("key", "val")]
        "Static text" [] emptyHyper).children = [] ∧
      evaluateEntity (EntityNode.mk "simple" EntityType.agent none none
        [("key", "val")] "Static text" [] emptyHyper) = .ok "Static text" :=
  ⟨by decide, rfl,
    claim_C9_amended
      (EntityNode.mk "simple" EntityType.agent none none [("key", "val")]
        "Static text" [] emptyHyper)
      (by decide) rfl (by decide)⟩

/-- C9 (counterexample to the claim as stated): the template `(ph "a b")`
contains no `\w`-placeholder and the node has no children, yet a literal
param with the non-identifier key `"a b"` is substituted by
`insertParamsIntoPrompt`, so evaluation does not return the template
unchanged. -/
theorem claim_C9_counterexample :
    scanPlaceholders (⟨patChars "a b".data⟩ : String).data = [] ∧
      evaluateEntity (EntityNode.mk "n" EntityType.tool none none [("a b", "X")]
        ⟨patChars "a b".data⟩ [] emptyHyper) = .ok "X" ∧
      ("X" : String) ≠ ⟨patChars "a b".data⟩ := by
  exact ⟨by decide, by decide, by decide⟩

theorem lookupKey_objSet {β : Type _} (j k : String) (v : β) :
    ∀ (m : List (String × β)),
      lookupKey j (objSet m k v) = if k = j then some v else lookupKey j m := by
  intro m
  induction m with
  | nil => rfl
  | cons kv rest ih =>
    obtain ⟨k', v'⟩ := kv
    by_cases hk : k' = k
    · simp only [objSet, if_pos hk, lookupKey]
      subst hk
      by_cases hj : k' = j <;> simp [hj]
    · simp only [objSet, if_neg hk, lookupKey, ih]
      by_cases hj : k' = j
      · have hkj : ¬(k = j) := fun h => hk (h ▸ hj)
        simp [hj, hkj]
      · simp [hj]

theorem containsKey_objSet {β : Type _} (j k : String) (v : β) (m : List (String × β)) :
    containsKey j (objSet m k v) = (decide (k = j) || containsKey j m) := by
  simp only [containsKey, lookupKey_objSet]
  by_cases hkj : k = j
  · simp [hkj]
  · simp [hkj]

theorem evalChildren_keys (cs : List EntityNode) :
    ∀ (memo params memo' ps'), evalChildren cs memo params = .ok (memo', ps') →
      ∀ j, containsKey j ps' =
        (containsKey j params || (cs.map EntityNode.id).contains j) := by
  induction cs with
  | nil =>
    intro memo params memo' ps' h j
    cases h
    simp
  | cons c rest ih =>
    intro memo params memo' ps' h j
    rw [show evalChildren (c :: rest) memo params =
      (match evalNode c memo with
       | .error e => .error e
       | .ok (m', v) => evalChildren rest m' (objSet params c.id v)) from rfl] at h
    rcases hev : evalNode c memo with e | ⟨m', v⟩
    · rw [hev] at h
      exact absurd h (by simp)
    · rw [hev] at h
      have hkeys := ih m' (objSet params c.id v) memo' ps' h j
      rw [hkeys, containsKey_objSet]
      by_cases hj : c.id = j
      · simp [hj, List.contains_cons]
      · have hj2 : ¬(j = c.id) := fun h2 => hj h2.symm
        simp [hj, hj2, List.contains_cons]

theorem dedupFirst_mem (x : String) : ∀ (l seen : List String),
    x ∈ dedupFirst seen l ↔ x ∈ l ∧ x ∉ seen := by
  intro l
  induction l with
  | nil => intro seen; simp [dedupFirst]
  | cons y ys ih =>
    intro seen
    by_cases hy : y ∈ seen
    · simp only [dedupFirst, if_pos hy, ih]
      constructor
      · rintro ⟨hx, hns⟩; exact ⟨List.mem_cons_of_mem y hx, hns⟩
      · rintro ⟨hx, hns⟩
        rcases List.mem_cons.mp hx with rfl | hx'
        · exact absurd hy hns
        · exact ⟨hx', hns⟩
    · simp only [dedupFirst, if_neg hy, List.mem_cons, ih, List.mem_cons]
      constructor
      · rintro (rfl | ⟨hx, hns⟩)
        · exact ⟨Or.inl rfl, hy⟩
        · exact ⟨Or.inr hx, fun hs => hns (Or.inr hs)⟩
      · rintro ⟨rfl | hx, hns⟩
        · exact Or.inl rfl
        · by_cases hxy : x = y
          · exact Or.inl hxy
          · exact Or.inr ⟨hx, fun hs => hs.elim hxy hns⟩

theorem dedupFirst_nodup : ∀ (l seen : List String), (dedupFirst seen l).Nodup := by
  intro l
  induction l with
  | nil => intro seen; simp [dedupFirst]
  | cons y ys ih =>
    intro seen
    by_cases hy : y ∈ seen
    · simp only [dedupFirst, if_pos hy]
      exact ih seen
    · simp only [dedupFirst, if_neg hy]
      refine List.nodup_cons.mpr ⟨?_, ih (y :: seen)⟩
      intro hmem
      exact ((dedupFirst_mem y ys (y :: seen)).mp hmem).2 (List.mem_cons_self y seen)

theorem contains_iff_memS (l : List String) (x : String) :
    l.contains x = true ↔ x ∈ l := by
  induction l with
  | nil => simp
  | cons y ys ih => simp [List.contains_cons, ih]

/-- C2 (amended): for a node whose children all evaluate successfully and
whose effective params keys all compile to literal placeholder patterns,
evaluation raises an error exactly when some placeholder of its template (a
nonempty word identifier between double braces) is neither a literal param
key, nor the id of a child, nor an inherited `Object.prototype` property
name (the validation membership test is the JS `in` operator, which
consults the prototype chain); the error is a thrown Error whose message
names the node id and lists exactly the missing identifiers (each listed
string is missing and every missing one is listed), deduplicated, with
plural `s` exactly when more than one remains.  Without the key proviso
evaluation can also throw a SyntaxError from `new RegExp` with no
placeholder missing at all — see the counterexample. -/
theorem claim_C2_amended (n : EntityNode) (memo' ps' : List (String × String))
    (hc : evalChildren n.children [] n.params = .ok (memo', ps'))
    (hlit : ∀ kv ∈ ps', litShape (patParse (patChars (kv.1 : String).data)) = true) :
    ((∃ e, evaluateEntity n = .error e) ↔
      ∃ w : List Char,
        (∃ pre post, n.prompt.data = pre ++ lbChar :: lbChar :: (w ++ rbChar :: rbChar :: post)) ∧
        w ≠ [] ∧ w.all isWordChar = true ∧
        containsKey (⟨w⟩ : String) n.params = false ∧
        (⟨w⟩ : String) ∉ n.children.map EntityNode.id ∧
        (⟨w⟩ : String) ∉ protoProps) ∧
    (∀ e, evaluateEntity n = .error e →
      ∃ miss : List String, miss ≠ [] ∧ miss.Nodup ∧
        (∀ w : List Char,
          (∃ pre post, n.prompt.data = pre ++ lbChar :: lbChar :: (w ++ rbChar :: rbChar :: post)) →
          w ≠ [] → w.all isWordChar = true →
          containsKey (⟨w⟩ : String) n.params = false →
          (⟨w⟩ : String) ∉ n.children.map EntityNode.id →
          (⟨w⟩ : String) ∉ protoProps →
          (⟨w⟩ : String) ∈ miss) ∧
        (∀ x ∈ miss, ∃ w : List Char, x = (⟨w⟩ : String) ∧
          (∃ pre post, n.prompt.data = pre ++ lbChar :: lbChar :: (w ++ rbChar :: rbChar :: post)) ∧
          w ≠ [] ∧ w.all isWordChar = true ∧
          containsKey (⟨w⟩ : String) n.params = false ∧
          (⟨w⟩ : String) ∉ n.children.map EntityNode.id ∧
          (⟨w⟩ : String) ∉ protoProps) ∧
        e = EvalError.thrown ("Missing parameter" ++ (if miss.length > 1 then "s" else "") ++ " in " ++
          entityTypeStr n.type ++ " \"" ++ n.id ++ "\": " ++ String.intercalate ", " miss)) := by
  obtain ⟨i, t, mv, nm, ps, pr, cs, hy⟩ := n
  simp only [EntityNode.children_mk, EntityNode.params_mk, EntityNode.prompt_mk,
    EntityNode.type_mk, EntityNode.id_mk] at hc ⊢
  have hkeys := evalChildren_keys cs [] ps memo' ps' hc
  obtain ⟨r, hins⟩ := insertParams_some_ok pr ps' hlit
  have hev : evaluateEntity (EntityNode.mk i t mv nm ps pr cs hy) =
      (match validateEntityParams pr ps' i t with
       | some err => Except.error (EvalError.thrown err)
       | none => Except.ok r) := by
    show (match evalNode (EntityNode.mk i t mv nm ps pr cs hy) [] with
          | .error e => (Except.error e : Except EvalError String)
          | .ok (_, v) => .ok v) = _
    rw [show evalNode (EntityNode.mk i t mv nm ps pr cs hy) [] =
        (match evalChildren cs [] ps with
         | .error e => .error e
         | .ok (memo2, params) =>
           match validateEntityParams pr params i t with
           | some err => .error (EvalError.thrown err)
           | none =>
             match insertParamsIntoPrompt pr params with
             | .error e => .error e
             | .ok r2 => .ok ((i, r2) :: memo2, r2)) from rfl]
    rw [hc]
    show (match (match validateEntityParams pr ps' i t with
          | some err => (Except.error (EvalError.thrown err) :
              Except EvalError (List (String × String) × String))
          | none =>
            match insertParamsIntoPrompt pr ps' with
            | .error e => .error e
            | .ok r2 => .ok ((i, r2) :: memo', r2)) with
          | .error e => (Except.error e : Except EvalError String)
          | .ok (_, v) => .ok v) = _
    rcases hv : validateEntityParams pr ps' i t with _ | err
    · rw [hins]
    · rfl
  have hsem : ∀ w : List Char,
      ((∃ pre post, pr.data = pre ++ lbChar :: lbChar :: (w ++ rbChar :: rbChar :: post)) ∧
        w ≠ [] ∧ w.all isWordChar = true ∧
        containsKey (⟨w⟩ : String) ps = false ∧
        (⟨w⟩ : String) ∉ cs.map EntityNode.id ∧
        (⟨w⟩ : String) ∉ protoProps) ↔
      (w ∈ scanPlaceholders pr.data ∧ jsIn (⟨w⟩ : String) ps' = false) := by
    intro w
    constructor
    · rintro ⟨⟨pre, post, hdec⟩, hne, hall, hps, hch, hproto⟩
      refine ⟨scanPlaceholders_complete _ pre w post hdec hne hall, ?_⟩
      simp only [jsIn, Bool.or_eq_false_iff]
      constructor
      · rw [hkeys ⟨w⟩]
        simp only [Bool.or_eq_false_iff]
        refine ⟨hps, ?_⟩
        cases hcontains : (cs.map EntityNode.id).contains (⟨w⟩ : String)
        · rfl
        · exact absurd ((contains_iff_memS _ _).mp hcontains) hch
      · cases hcontains : protoProps.contains (⟨w⟩ : String)
        · rfl
        · exact absurd ((contains_iff_memS _ _).mp hcontains) hproto
    · rintro ⟨hscan, hcont⟩
      obtain ⟨⟨pre, post, hdec⟩, hne, hall⟩ := scanPlaceholders_sound _ _ hscan
      simp only [jsIn, Bool.or_eq_false_iff] at hcont
      obtain ⟨hck, hproto⟩ := hcont
      rw [hkeys ⟨w⟩] at hck
      simp only [Bool.or_eq_false_iff] at hck
      refine ⟨⟨pre, post, hdec⟩, hne, hall, hck.1, fun hmem => ?_, fun hmem => ?_⟩
      · rw [(contains_iff_memS _ _).mpr hmem] at hck
        exact absurd hck.2 (by simp)
      · rw [(contains_iff_memS _ _).mpr hmem] at hproto
        exact absurd hproto (by simp)
  rcases hval : validateEntityParams pr ps' i t with _ | e0
  · -- no missing parameter: evaluation succeeds and nothing is missing
    have hok : evaluateEntity (EntityNode.mk i t mv nm ps pr cs hy) = Except.ok r := by
      rw [hev, hval]
    have hnone : ∀ w ∈ scanPlaceholders pr.data, jsIn (⟨w⟩ : String) ps' = true := by
      intro w hw
      simp only [validateEntityParams] at hval
      split at hval
      · rename_i hempty
        rw [List.isEmpty_iff] at hempty
        have hfm : (if jsIn (⟨w⟩ : String) ps' = true then (none : Option String)
            else some (⟨w⟩ : String)) = none :=
          List.filterMap_eq_nil_iff.mp hempty w hw
        by_cases hck : jsIn (⟨w⟩ : String) ps' = true
        · exact hck
        · rw [if_neg hck] at hfm
          simp at hfm
      · simp at hval
    constructor
    · constructor
      · rintro ⟨e, he⟩
        rw [hok] at he
        simp at he
      · rintro ⟨w, hdec, hne, hall, hps, hch, hproto⟩
        have hw := (hsem w).mp ⟨hdec, hne, hall, hps, hch, hproto⟩
        rw [hnone w hw.1] at hw
        simp at hw
    · intro e he
      rw [hok] at he
      simp at he
  · -- a missing parameter: evaluation errors with the formatted message
    have herr : evaluateEntity (EntityNode.mk i t mv nm ps pr cs hy) =
        Except.error (EvalError.thrown e0) := by
      rw [hev, hval]
    simp only [validateEntityParams] at hval
    split at hval
    · simp at hval
    · rename_i hempty
      rw [Bool.not_eq_true, List.isEmpty_eq_false_iff_exists_mem] at hempty
      constructor
      · constructor
        · rintro ⟨e, -⟩
          obtain ⟨x, hx⟩ := hempty
          obtain ⟨w, hwscan, hwif⟩ := List.mem_filterMap.mp hx
          by_cases hck : jsIn (⟨w⟩ : String) ps' = true
          · rw [if_pos hck] at hwif; simp at hwif
          · rw [if_neg hck] at hwif
            exact ⟨w, (hsem w).mpr ⟨hwscan, by simpa using hck⟩⟩
        · intro _
          exact ⟨EvalError.thrown e0, herr⟩
      · intro e he
        rw [herr] at he
        have he0 : e = EvalError.thrown e0 := by
          injection he.symm
        subst he0
        refine ⟨dedupFirst [] ((scanPlaceholders pr.data).filterMap
          (fun w => if jsIn (⟨w⟩ : String) ps' = true then none
            else some (⟨w⟩ : String))), ?_, dedupFirst_nodup _ _, ?_, ?_, ?_⟩
        · obtain ⟨x, hx⟩ := hempty
          intro hnil
          have hmem : x ∈ dedupFirst [] ((scanPlaceholders pr.data).filterMap _) :=
            (dedupFirst_mem x _ []).mpr ⟨hx, by simp⟩
          rw [hnil] at hmem
          simp at hmem
        · intro w hdec hne hall hps hch hproto
          have hsem' := (hsem w).mp ⟨hdec, hne, hall, hps, hch, hproto⟩
          refine (dedupFirst_mem _ _ []).mpr ⟨?_, by simp⟩
          exact List.mem_filterMap.mpr ⟨w, hsem'.1, by rw [if_neg (by simp [hsem'.2])]⟩
        · intro x hx
          obtain ⟨hmem, -⟩ := (dedupFirst_mem x _ []).mp hx
          obtain ⟨w, hwscan, hwif⟩ := List.mem_filterMap.mp hmem
          by_cases hck : jsIn (⟨w⟩ : String) ps' = true
          · rw [if_pos hck] at hwif; simp at hwif
          · rw [if_neg hck] at hwif
            have hxw : x = (⟨w⟩ : String) := by injection hwif.symm
            obtain ⟨hdec, hne, hall, hps, hch, hproto⟩ :=
              (hsem w).mpr ⟨hwscan, by simpa using hck⟩
            exact ⟨w, hxw, hdec, hne, hall, hps, hch, hproto⟩
        · exact congrArg EvalError.thrown (by injection hval.symm)

/-- C2 (counterexample to the claim as stated): with the params key `[`
the built pattern is an unterminated character class, so evaluation throws
a SyntaxError from `new RegExp` although the template has no placeholder
at all — an error raised with no missing parameter, refuting the claimed
equivalence and the claimed message shape. -/
theorem claim_C2_counterexample :
    scanPlaceholders ("hi" : String).data = [] ∧
    evaluateEntity (EntityNode.mk "n" EntityType.prompt none none [("[", "x")]
      "hi" [] emptyHyper) = .error EvalError.regexSyntax :=
  ⟨by decide, by decide⟩

/-- C2 (witness for the amended theorem): a childless agent node with
template `Hi (ph role) and (ph role)` and only `name` supplied raises a
MissingParameter error. -/
theorem claim_C2_witness :
    (∀ kv ∈ [("name", ("A" : String))],
      litShape (patParse (patChars (kv.1 : String).data)) = true) ∧
    evalChildren (EntityNode.mk "test" EntityType.agent none none [("name", "A")]
        ⟨"Hi ".data ++ patChars "role".data ++ " and ".data ++ patChars "role".data⟩
        [] emptyHyper).children [] (EntityNode.mk "test" EntityType.agent none none
        [("name", "A")]
        ⟨"Hi ".data ++ patChars "role".data ++ " and ".data ++ patChars "role".data⟩
        [] emptyHyper).params = .ok ([], [("name", "A")]) ∧
      ∃ e, evaluateEntity (EntityNode.mk "test" EntityType.agent none none
        [("name", "A")]
        ⟨"Hi ".data ++ patChars "role".data ++ " and ".data ++ patChars "role".data⟩
        [] emptyHyper) = .error e :=
  ⟨by decide, rfl,
    (claim_C2_amended (EntityNode.mk "test" EntityType.agent none none [("name", "A")]
        ⟨"Hi ".data ++ patChars "role".data ++ " and ".data ++ patChars "role".data⟩
        [] emptyHyper) [] [("name", "A")] rfl (by decide)).1.mpr
      ⟨"role".data,
        ⟨"Hi ".data, " and ".data ++ patChars "role".data, by decide⟩,
        by decide, by decide, by decide, by decide, by decide⟩⟩

/-- C7 (counterexample to the claim as stated): building `a` whose nested
param `b` nests `a` again with a param also named `a` reaches the recursive
call for `a` with ancestor chain `[a, b]` — the id is already present in the
chain — yet the error raised is the SelfReference message (that check runs
first), not a CircularReference message with the chain `a -> b -> a`. -/
theorem claim_C7_counterexample :
    getEntityNode "a" EntityType.agent
      (EntityConfig.mk none none
        [("b", ConfigValue.cfg (EntityConfig.mk none none
          [("a", ConfigValue.cfg (EntityConfig.mk none none
            [("a", ConfigValue.str "x")] "inner" false emptyHyper))]
          "bp" false emptyHyper))]
        "ap" false emptyHyper) [] =
      .error (selfRefMsg EntityType.prompt "a") ∧
    getEntityNode "a" EntityType.prompt
      (EntityConfig.mk none none [("a", ConfigValue.str "x")] "inner" false emptyHyper)
      ["a", "b"] = .error (selfRefMsg EntityType.prompt "a") ∧
    "a" ∈ ["a", "b"] ∧
    selfRefMsg EntityType.prompt "a" ≠
      circularMsg EntityType.prompt (["a", "b"] ++ ["a"]) := by
  exact ⟨rfl, rfl, by decide, by decide⟩

/-- C7 (amended): when the id being built is already present in the
ancestor chain and is not `in` its own params object — neither an own key
nor an inherited `Object.prototype` property name, since the
self-reference check (which runs first) uses the JS `in` operator —
`getEntityNode` raises a CircularReference error whose message renders the
full chain from the root down to the repeated id, joined by arrows, and no
tree is returned. -/
theorem claim_C7_amended (id : String) (t : EntityType) (options : EntityConfig)
    (anc : List String) (hanc : id ∈ anc)
    (hself : containsCfgKey id options.params = false) :
    getEntityNode id t options anc = .error (circularMsg t (anc ++ [id])) := by
  obtain ⟨mv, nm, ps, dp, tm, hy⟩ := options
  simp only [EntityConfig.params] at hself
  show (if containsCfgKey id ps = true then Except.error (selfRefMsg t id)
    else if id ∈ anc then Except.error (circularMsg t (anc ++ [id]))
    else _) = _
  rw [if_neg (by simp [hself]), if_pos hanc]

/-- C7 (witness for the amended theorem): with ancestor chain `[a, b]` the
repeated id `a` yields the message `Circular agent reference detected:
a -> b -> a`. -/
theorem claim_C7_witness :
    ("a" ∈ ["a", "b"]) ∧
      getEntityNode "a" EntityType.agent
        (EntityConfig.mk none none [] "p" false emptyHyper) ["a", "b"] =
        .error "Circular agent reference detected: a -> b -> a" :=
  ⟨by decide, by
    rw [claim_C7_amended "a" EntityType.agent
      (EntityConfig.mk none none [] "p" false emptyHyper) ["a", "b"]
      (by decide) (by decide)]
    exact congrArg Except.error (by decide)⟩

mutual

theorem getEntityNode_ok : ∀ (id : String) (t : EntityType) (c : EntityConfig)
    (anc : List String), pathsOK id c anc = true →
    ∃ node, getEntityNode id t c anc = .ok node
  | id, t, EntityConfig.mk mv nm ps dp tm hy, anc, h => by
    simp only [pathsOK, Bool.and_eq_true, Bool.not_eq_true'] at h
    obtain ⟨⟨h1, h2⟩, h3⟩ := h
    show (∃ node, (if containsCfgKey id ps = true then Except.error (selfRefMsg t id)
      else if id ∈ anc then Except.error (circularMsg t (anc ++ [id]))
      else match buildEntries ps (anc ++ [id]) [] [] with
        | .error e => .error e
        | .ok (sp, children) =>
          .ok (EntityNode.mk id t mv nm sp dp children
            (if t = EntityType.agent ∧ isAgentOptions (EntityConfig.mk mv nm ps dp tm hy)
             then hy else emptyHyper))) = .ok node)
    rw [if_neg (by simp [h1]), if_neg (by
      intro hmem
      rw [(contains_iff_memS anc id).mpr hmem] at h2
      exact absurd h2 (by simp))]
    obtain ⟨⟨sp, children⟩, hb⟩ := buildEntries_ok ps (anc ++ [id]) [] [] h3
    rw [hb]
    exact ⟨_, rfl⟩
termination_by structural _ _ c _ _ => c

theorem buildEntries_ok : ∀ (entries : List (String × ConfigValue)) (anc : List String)
    (sp : List (String × String)) (cs : List EntityNode),
    pathsOKEntries entries anc = true →
    ∃ r, buildEntries entries anc sp cs = .ok r
  | [], _, sp, cs, _ => ⟨(sp, cs), rfl⟩
  | (k, v) :: rest, anc, sp, cs, h => by
    cases v with
    | str s =>
      have hrest : pathsOKEntries rest anc = true := by
        have h' : (true && pathsOKEntries rest anc) = true := h
        simpa using h'
      show ∃ r, buildEntries rest anc (objSet sp k s) cs = .ok r
      exact buildEntries_ok rest anc (objSet sp k s) cs hrest
    | cfg c =>
      have h' : (pathsOK k c anc && pathsOKEntries rest anc) = true := h
      have hc : pathsOK k c anc = true := ((Bool.and_eq_true _ _).mp h').1
      have hrest : pathsOKEntries rest anc = true := ((Bool.and_eq_true _ _).mp h').2
      show ∃ r, (if isAgentOptions c = true then
          match getEntityNode k EntityType.agent c anc with
          | .error e => .error e
          | .ok child => buildEntries rest anc sp (cs ++ [child])
        else if isToolOptions c = true then
          match getEntityNode k EntityType.tool c anc with
          | .error e => .error e
          | .ok child => buildEntries rest anc sp (cs ++ [child])
        else if isTextPromptOptions c = true then
          match getEntityNode k EntityType.prompt c anc with
          | .error e => .error e
          | .ok child => buildEntries rest anc sp (cs ++ [child])
        else buildEntries rest anc sp cs) = .ok r
      by_cases hA : isAgentOptions c = true
      · rw [if_pos hA]
        obtain ⟨child, hchild⟩ := getEntityNode_ok k EntityType.agent c anc hc
        rw [hchild]
        exact buildEntries_ok rest anc sp (cs ++ [child]) hrest
      · rw [if_neg hA]
        by_cases hT : isToolOptions c = true
        · rw [if_pos hT]
          obtain ⟨child, hchild⟩ := getEntityNode_ok k EntityType.tool c anc hc
          rw [hchild]
          exact buildEntries_ok rest anc sp (cs ++ [child]) hrest
        · rw [if_neg hT]
          by_cases hP : isTextPromptOptions c = true
          · rw [if_pos hP]
            obtain ⟨child, hchild⟩ := getEntityNode_ok k EntityType.prompt c anc hc
            rw [hchild]
            exact buildEntries_ok rest anc sp (cs ++ [child]) hrest
          · rw [if_neg hP]
            exact buildEntries_ok rest anc sp cs hrest
termination_by structural entries _ _ _ _ => entries

end

/-- C10 (amended): because the ancestor set is copied at each recursive
call, a CircularReference can only arise from an id repeating along a
single root-to-node path.  Whenever no id repeats along any path and no
configuration's id is `in` its own params object — which, via the JS `in`
operator's prototype-chain lookup, also requires that no id with a present
params object names an `Object.prototype` property (`pathsOK`) —
construction succeeds; in particular a configuration in which the same
ordinary id occurs in two disjoint branches builds fine (see the witness).
Without the prototype proviso the claim fails: see the counterexample,
where the duplicated disjoint id `hasOwnProperty` aborts construction with
a SelfReference error. -/
theorem claim_C10_amended (id : String) (t : EntityType) (options : EntityConfig)
    (anc : List String) (h : pathsOK id options anc = true) :
    ∃ node, getEntityNode id t options anc = .ok node :=
  getEntityNode_ok id t options anc h

/-- C10 (counterexample to the claim as stated): the id `hasOwnProperty`
occurs only in two disjoint branches `x` and `y` (neither occurrence an
ancestor of the other), yet construction does not succeed: the JS `in`
operator finds `hasOwnProperty` on the `Object.prototype` of the
occurrence's params object, so the self-reference check throws and no tree
is returned. -/
theorem claim_C10_counterexample :
    (EntityConfig.mk none none
      [("hasOwnProperty", ConfigValue.cfg (EntityConfig.mk none none
        [("p", ConfigValue.str "v")] "lp" false emptyHyper))] "xp" false
      emptyHyper).params.map Prod.fst = ["hasOwnProperty"] ∧
    getEntityNode "r" EntityType.agent (EntityConfig.mk none none
      [("x", ConfigValue.cfg (EntityConfig.mk none none
          [("hasOwnProperty", ConfigValue.cfg (EntityConfig.mk none none
            [("p", ConfigValue.str "v")] "lp" false emptyHyper))] "xp" false
          emptyHyper)),
       ("y", ConfigValue.cfg (EntityConfig.mk none none
          [("hasOwnProperty", ConfigValue.cfg (EntityConfig.mk none none
            [("p", ConfigValue.str "v")] "lp" false emptyHyper))] "yp" false
          emptyHyper))]
      "rp" false emptyHyper) [] =
      .error (selfRefMsg EntityType.prompt "hasOwnProperty") :=
  ⟨rfl, rfl⟩

/-- C10 (witness for the amended theorem): the id `c` occurs in the two
disjoint branches `x` and `y`; `pathsOK` holds and construction
succeeds. -/
theorem claim_C10_amended_witness :
    pathsOK "r" (EntityConfig.mk none none
      [("x", ConfigValue.cfg (EntityConfig.mk none none
          [("c", ConfigValue.str "v")] "xp" false emptyHyper)),
        ("y", ConfigValue.cfg (EntityConfig.mk none none
          [("c", ConfigValue.str "w")] "yp" false emptyHyper))]
      "rp" false emptyHyper) [] = true ∧
      ∃ node, getEntityNode "r" EntityType.agent (EntityConfig.mk none none
        [("x", ConfigValue.cfg (EntityConfig.mk none none
            [("c", ConfigValue.str "v")] "xp" false emptyHyper)),
          ("y", ConfigValue.cfg (EntityConfig.mk none none
            [("c", ConfigValue.str "w")] "yp" false emptyHyper))]
        "rp" false emptyHyper) [] = .ok node :=
  ⟨by decide,
    claim_C10_amended "r" EntityType.agent (EntityConfig.mk none none
      [("x", ConfigValue.cfg (EntityConfig.mk none none
          [("c", ConfigValue.str "v")] "xp" false emptyHyper)),
        ("y", ConfigValue.cfg (EntityConfig.mk none none
          [("c", ConfigValue.str "w")] "yp" false emptyHyper))]
      "rp" false emptyHyper) [] (by decide)⟩

theorem containsKey_append {β : Type _} (j : String) :
    ∀ (a b : List (String × β)),
      containsKey j (a ++ b) = (containsKey j a || containsKey j b) := by
  intro a b
  induction a with
  | nil => simp [containsKey, lookupKey]
  | cons kv rest ih =>
    obtain ⟨k', v'⟩ := kv
    show containsKey j ((k', v') :: (rest ++ b)) = _
    simp only [containsKey, lookupKey] at ih ⊢
    by_cases hk : k' = j
    · simp [hk]
    · simp only [if_neg hk]
      exact ih

theorem objSet_append {β : Type _} (k : String) (v : β) :
    ∀ (m : List (String × β)), containsKey k m = false →
      objSet m k v = m ++ [(k, v)] := by
  intro m
  induction m with
  | nil => intro _; rfl
  | cons kv rest ih =>
    obtain ⟨k', v'⟩ := kv
    intro h
    simp only [containsKey, lookupKey] at h
    by_cases hk : k' = k
    · rw [if_pos hk] at h
      simp at h
    · rw [if_neg hk] at h
      show (if k' = k then (k, v) :: rest else (k', v') :: objSet rest k v) = _
      rw [if_neg hk, ih h]
      simp

theorem buildEntries_spec : ∀ (entries : List (String × ConfigValue)) (anc : List String)
    (sp : List (String × String)) (cs : List EntityNode)
    (sp' : List (String × String)) (cs' : List EntityNode),
    (∀ kc ∈ entries, unionMember kc.2 = true) →
    (∀ kc ∈ entries, containsKey kc.1 sp = false) →
    (entries.map Prod.fst).Nodup →
    buildEntries entries anc sp cs = .ok (sp', cs') →
    sp' = sp ++ entries.filterMap (fun kc => match kc.2 with
      | ConfigValue.str s => some (kc.1, s) | ConfigValue.cfg _ => none) ∧
    ∃ built, cs' = cs ++ built ∧
      List.Forall₂ (fun (kc : String × EntityConfig) (child : EntityNode) =>
        getEntityNode kc.1 (classifyValue kc.2) kc.2 anc = .ok child)
        (entries.filterMap (fun kc => match kc.2 with
          | ConfigValue.cfg c => some (kc.1, c) | ConfigValue.str _ => none)) built := by
  intro entries
  induction entries with
  | nil =>
    intro anc sp cs sp' cs' _ _ _ hok
    cases hok
    exact ⟨by simp, [], by simp, List.Forall₂.nil⟩
  | cons kv rest ih =>
    intro anc sp cs sp' cs' hwt hsp hnd hok
    obtain ⟨k, v⟩ := kv
    simp only [List.map_cons, List.nodup_cons] at hnd
    cases v with
    | str s =>
      have hstep : buildEntries rest anc (objSet sp k s) cs = .ok (sp', cs') := hok
      have hkfree : containsKey k sp = false := hsp (k, ConfigValue.str s) (List.mem_cons_self _ _)
      rw [objSet_append k s sp hkfree] at hstep
      have hsp' : ∀ kc ∈ rest, containsKey kc.1 (sp ++ [(k, s)]) = false := by
        intro kc hkc
        rw [containsKey_append]
        have h1 : containsKey kc.1 sp = false := hsp kc (List.mem_cons_of_mem _ hkc)
        have h2 : containsKey kc.1 [(k, s)] = false := by
          simp only [containsKey, lookupKey]
          rw [if_neg]
          · rfl
          · intro hkk
            exact hnd.1 (hkk ▸ List.mem_map_of_mem Prod.fst hkc)
        rw [h1, h2]
        rfl
      obtain ⟨hsp'', built, hcs, hfa⟩ :=
        ih anc (sp ++ [(k, s)]) cs sp' cs'
          (fun kc hkc => hwt kc (List.mem_cons_of_mem _ hkc)) hsp' hnd.2 hstep
      refine ⟨?_, built, hcs, ?_⟩
      · rw [hsp'']
        simp
      · simpa using hfa
    | cfg c =>
      have hum : unionMember (ConfigValue.cfg c) = true :=
        hwt (k, ConfigValue.cfg c) (List.mem_cons_self _ _)
      have hrest_wt : ∀ kc ∈ rest, unionMember kc.2 = true :=
        fun kc hkc => hwt kc (List.mem_cons_of_mem _ hkc)
      have hrest_sp : ∀ kc ∈ rest, containsKey kc.1 sp = false :=
        fun kc hkc => hsp kc (List.mem_cons_of_mem _ hkc)
      have hstep : (if isAgentOptions c = true then
          match getEntityNode k EntityType.agent c anc with
          | .error e => .error e
          | .ok child => buildEntries rest anc sp (cs ++ [child])
        else if isToolOptions c = true then
          match getEntityNode k EntityType.tool c anc with
          | .error e => .error e
          | .ok child => buildEntries rest anc sp (cs ++ [child])
        else if isTextPromptOptions c = true then
          match getEntityNode k EntityType.prompt c anc with
          | .error e => .error e
          | .ok child => buildEntries rest anc sp (cs ++ [child])
        else buildEntries rest anc sp cs) = .ok (sp', cs') := hok
      by_cases hA : isAgentOptions c = true
      · rw [if_pos hA] at hstep
        rcases hg : getEntityNode k EntityType.agent c anc with e | child
        · rw [hg] at hstep; exact absurd hstep (by simp)
        · rw [hg] at hstep
          obtain ⟨hsp'', built, hcs, hfa⟩ :=
            ih anc sp (cs ++ [child]) sp' cs' hrest_wt hrest_sp hnd.2 hstep
          refine ⟨by simpa using hsp'', child :: built, by simp [hcs], ?_⟩
          refine List.Forall₂.cons ?_ hfa
          show getEntityNode k (classifyValue c) c anc = .ok child
          rw [show classifyValue c = EntityType.agent from by
            simp [classifyValue, hA]]
          exact hg
      · rw [if_neg hA] at hstep
        by_cases hT : isToolOptions c = true
        · rw [if_pos hT] at hstep
          rcases hg : getEntityNode k EntityType.tool c anc with e | child
          · rw [hg] at hstep; exact absurd hstep (by simp)
          · rw [hg] at hstep
            obtain ⟨hsp'', built, hcs, hfa⟩ :=
              ih anc sp (cs ++ [child]) sp' cs' hrest_wt hrest_sp hnd.2 hstep
            refine ⟨by simpa using hsp'', child :: built, by simp [hcs], ?_⟩
            refine List.Forall₂.cons ?_ hfa
            show getEntityNode k (classifyValue c) c anc = .ok child
            rw [show classifyValue c = EntityType.tool from by
              simp [classifyValue, hA, hT]]
            exact hg
        · rw [if_neg hT] at hstep
          by_cases hP : isTextPromptOptions c = true
          · rw [if_pos hP] at hstep
            rcases hg : getEntityNode k EntityType.prompt c anc with e | child
            · rw [hg] at hstep; exact absurd hstep (by simp)
            · rw [hg] at hstep
              obtain ⟨hsp'', built, hcs, hfa⟩ :=
                ih anc sp (cs ++ [child]) sp' cs' hrest_wt hrest_sp hnd.2 hstep
              refine ⟨by simpa using hsp'', child :: built, by simp [hcs], ?_⟩
              refine List.Forall₂.cons ?_ hfa
              show getEntityNode k (classifyValue c) c anc = .ok child
              rw [show classifyValue c = EntityType.prompt from by
                simp [classifyValue, hA, hT]]
              exact hg
          · exfalso
            simp only [unionMember] at hum
            simp only [isAgentOptions] at hA
            simp only [isToolOptions] at hT
            simp only [isTextPromptOptions] at hP
            have hmf : c.hyper.model.isSome = false ∧ c.hyper.provider.isSome = false := by
              rcases Bool.eq_false_or_eq_true c.hyper.model.isSome with hm | hm <;>
                rcases Bool.eq_false_or_eq_true c.hyper.provider.isSome with hp | hp
              · exact absurd (by rw [hm, hp]; rfl) hA
              · rw [hm, hp] at hum; simp at hum
              · rw [hm, hp] at hum; simp at hum
              · exact ⟨hm, hp⟩
            rcases Bool.eq_false_or_eq_true c.typeMarkerTool with hmk | hmk
            · exact hT (by rw [hmf.1, hmf.2, hmk]; rfl)
            · exact hP (by rw [hmf.1, hmf.2, hmk]; rfl)
            

/-- C3: for a configuration whose param values are members of the declared
`ParamsValue` union (string, or nested options with `model`/`provider`
either both present or both absent) and whose entry keys are distinct (JS
object keys), a successful build records every string entry as a literal
param in entry order and builds exactly one child per non-string entry, in
entry order, by recursing with the ancestor chain extended by the current
id — no entry is dropped. -/
theorem claim_C3 (id : String) (t : EntityType) (options : EntityConfig)
    (anc : List String) (node : EntityNode)
    (hwt : ∀ kc ∈ options.params, unionMember kc.2 = true)
    (hnodup : (options.params.map Prod.fst).Nodup)
    (hok : getEntityNode id t options anc = .ok node) :
    node.params = options.params.filterMap (fun kc => match kc.2 with
      | ConfigValue.str s => some (kc.1, s) | ConfigValue.cfg _ => none) ∧
    List.Forall₂ (fun (kc : String × EntityConfig) (child : EntityNode) =>
      getEntityNode kc.1 (classifyValue kc.2) kc.2 (anc ++ [id]) = .ok child)
      (options.params.filterMap (fun kc => match kc.2 with
        | ConfigValue.cfg c => some (kc.1, c) | ConfigValue.str _ => none))
      node.children ∧
    node.children.length = (options.params.filterMap (fun kc => match kc.2 with
      | ConfigValue.cfg c => some (kc.1, c) | ConfigValue.str _ => none)).length := by
  obtain ⟨mv, nm, ps, dp, tm, hy⟩ := options
  simp only [EntityConfig.params] at hwt hnodup ⊢
  have hstep : (if containsCfgKey id ps = true then Except.error (selfRefMsg t id)
    else if id ∈ anc then Except.error (circularMsg t (anc ++ [id]))
    else match buildEntries ps (anc ++ [id]) [] [] with
      | .error e => .error e
      | .ok (sp, children) =>
        .ok (EntityNode.mk id t mv nm sp dp children
          (if t = EntityType.agent ∧ isAgentOptions (EntityConfig.mk mv nm ps dp tm hy)
           then hy else emptyHyper))) = .ok node := hok
  by_cases h1 : containsCfgKey id ps = true
  · rw [if_pos h1] at hstep; exact absurd hstep (by simp)
  · rw [if_neg h1] at hstep
    by_cases h2 : id ∈ anc
    · rw [if_pos h2] at hstep; exact absurd hstep (by simp)
    · rw [if_neg h2] at hstep
      rcases hb : buildEntries ps (anc ++ [id]) [] [] with e | ⟨sp, children⟩
      · rw [hb] at hstep; exact absurd hstep (by simp)
      · rw [hb] at hstep
        obtain ⟨hsp, built, hcs, hfa⟩ :=
          buildEntries_spec ps (anc ++ [id]) [] [] sp children hwt
            (fun kc _ => rfl) hnodup hb
        have hnode : node = EntityNode.mk id t mv nm sp dp children
            (if t = EntityType.agent ∧ isAgentOptions (EntityConfig.mk mv nm ps dp tm hy)
             then hy else emptyHyper) := by
          injection hstep.symm
        subst hnode
        simp only [EntityNode.params_mk, EntityNode.children_mk]
        rw [List.nil_append] at hsp
        rw [List.nil_append] at hcs
        subst hcs
        exact ⟨hsp, hfa, (List.Forall₂.length_eq hfa).symm⟩

/-- C3 (witness): a configuration with one string entry and one nested
entry builds a node with one literal param and exactly one child. -/
theorem claim_C3_witness :
    (EntityNode.mk "root" EntityType.agent none none [("lit", "x")] "rp"
      [EntityNode.mk "kid" EntityType.prompt none none [] "kp" [] emptyHyper]
      emptyHyper).params = [("lit", "x")] ∧
    (EntityNode.mk "root" EntityType.agent none none [("lit", "x")] "rp"
      [EntityNode.mk "kid" EntityType.prompt none none [] "kp" [] emptyHyper]
      emptyHyper).children.length = 1 := by
  have h := claim_C3 "root" EntityType.agent
    (EntityConfig.mk none none
      [("lit", ConfigValue.str "x"),
        ("kid", ConfigValue.cfg (EntityConfig.mk none none [] "kp" false emptyHyper))]
      "rp" false emptyHyper) [] 
    (EntityNode.mk "root" EntityType.agent none none [("lit", "x")] "rp"
      [EntityNode.mk "kid" EntityType.prompt none none [] "kp" [] emptyHyper]
      emptyHyper)
    (by decide) (by decide) rfl
  exact ⟨h.1.trans (by rfl), h.2.2.trans (by rfl)⟩

theorem updateChildrenNodes_eq_map (f : EntityNode → EntityNode) :
    ∀ (cs : List EntityNode),
      updateChildrenNodes cs f = cs.map (fun c => updateEntityNodes c f) := by
  intro cs
  induction cs with
  | nil => rfl
  | cons c rest ih =>
    show updateEntityNodes c f :: updateChildrenNodes rest f = _
    rw [ih]
    rfl

/-- C4 (counterexample to the claim as stated): the per-node merge callback
of `Hone.agent` never reads `provider` from the response item — a node with
local provider `openai` keeps it even though the server returned the
non-null provider `anthropic`. -/
theorem claim_C4_counterexample :
    (EntityResponseItem.mk "hi" (some "gpt-4") (some "anthropic") none none none
      none none none none).provider = some "anthropic" ∧
    (updateEntityNodes
      (EntityNode.mk "root" EntityType.agent none none [] "hi" []
        (Hyperparameters.mk (some "m0") (some "openai") none none none none none
          none none))
      (overlayAgentNode
        [("root", EntityResponseItem.mk "hi" (some "gpt-4") (some "anthropic")
          none none none none none none none)])).hyper.provider = some "openai" ∧
    (some "openai" : Option String) ≠ some "anthropic" := by
  exact ⟨rfl, rfl, by decide⟩

/-- C4 (amended): the overlay applied by `Hone.agent` (the per-node merge
of `updateAgentNodes`) takes the template from the server when present and
non-empty, else keeps the local one; it applies the server-wins-if-non-null
fallback independently per field for `model`, `temperature`, `maxTokens`,
`topP`, `frequencyPenalty`, `presencePenalty` and `stopSequences`; but
`provider` (and `tools`) are not part of the per-node merge and always keep
the locally-configured value; the same merge is applied structurally to
every node of the tree (children are overlaid recursively), and nodes with
no response entry are kept unchanged. -/
theorem claim_C4_amended (n : EntityNode) (emap : List (String × EntityResponseItem)) :
    (updateEntityNodes n (overlayAgentNode emap)).id = n.id ∧
    (updateEntityNodes n (overlayAgentNode emap)).params = n.params ∧
    (∀ ri, lookupKey n.id emap = some ri →
      (updateEntityNodes n (overlayAgentNode emap)).prompt =
        (if ri.prompt = "" then n.prompt else ri.prompt) ∧
      (updateEntityNodes n (overlayAgentNode emap)).hyper.model =
        jsNullish ri.model n.hyper.model ∧
      (updateEntityNodes n (overlayAgentNode emap)).hyper.temperature =
        jsNullish ri.temperature n.hyper.temperature ∧
      (updateEntityNodes n (overlayAgentNode emap)).hyper.maxTokens =
        jsNullish ri.maxTokens n.hyper.maxTokens ∧
      (updateEntityNodes n (overlayAgentNode emap)).hyper.topP =
        jsNullish ri.topP n.hyper.topP ∧
      (updateEntityNodes n (overlayAgentNode emap)).hyper.frequencyPenalty =
        jsNullish ri.frequencyPenalty n.hyper.frequencyPenalty ∧
      (updateEntityNodes n (overlayAgentNode emap)).hyper.presencePenalty =
        jsNullish ri.presencePenalty n.hyper.presencePenalty ∧
      (updateEntityNodes n (overlayAgentNode emap)).hyper.stopSequences =
        jsNullish ri.stopSequences n.hyper.stopSequences ∧
      (updateEntityNodes n (overlayAgentNode emap)).hyper.provider =
        n.hyper.provider ∧
      (updateEntityNodes n (overlayAgentNode emap)).hyper.tools = n.hyper.tools) ∧
    (lookupKey n.id emap = none →
      (updateEntityNodes n (overlayAgentNode emap)).prompt = n.prompt ∧
      (updateEntityNodes n (overlayAgentNode emap)).hyper = n.hyper) ∧
    (updateEntityNodes n (overlayAgentNode emap)).children =
      n.children.map (fun c => updateEntityNodes c (overlayAgentNode emap)) := by
  obtain ⟨i, t, mv, nm, ps, pr, cs, hy⟩ := n
  have hu : updateEntityNodes (EntityNode.mk i t mv nm ps pr cs hy)
      (overlayAgentNode emap) =
      overlayAgentNode emap (EntityNode.mk i t mv nm ps pr
        (updateChildrenNodes cs (overlayAgentNode emap)) hy) := rfl
  rw [hu]
  rcases hl : lookupKey i emap with _ | ri
  · have ho : overlayAgentNode emap (EntityNode.mk i t mv nm ps pr
        (updateChildrenNodes cs (overlayAgentNode emap)) hy) =
        EntityNode.mk i t mv nm ps pr
          (updateChildrenNodes cs (overlayAgentNode emap)) hy := by
      show (match lookupKey i emap with
        | none => EntityNode.mk i t mv nm ps pr
            (updateChildrenNodes cs (overlayAgentNode emap)) hy
        | some r => EntityNode.mk i t mv nm ps
            (if r.prompt = "" then pr else r.prompt)
            (updateChildrenNodes cs (overlayAgentNode emap))
            (Hyperparameters.mk (jsNullish r.model hy.model) hy.provider
              (jsNullish r.temperature hy.temperature)
              (jsNullish r.maxTokens hy.maxTokens)
              (jsNullish r.topP hy.topP)
              (jsNullish r.frequencyPenalty hy.frequencyPenalty)
              (jsNullish r.presencePenalty hy.presencePenalty)
              (jsNullish r.stopSequences hy.stopSequences)
              hy.tools)) = _
      rw [hl]
    rw [ho]
    refine ⟨rfl, rfl, ?_, ?_, ?_⟩
    · intro ri hri
      simp only [EntityNode.id_mk] at hri
      rw [hl] at hri
      exact absurd hri (by simp)
    · intro _
      exact ⟨rfl, rfl⟩
    · exact updateChildrenNodes_eq_map _ cs
  · have ho : overlayAgentNode emap (EntityNode.mk i t mv nm ps pr
        (updateChildrenNodes cs (overlayAgentNode emap)) hy) =
        EntityNode.mk i t mv nm ps
          (if ri.prompt = "" then pr else ri.prompt)
          (updateChildrenNodes cs (overlayAgentNode emap))
          (Hyperparameters.mk (jsNullish ri.model hy.model) hy.provider
            (jsNullish ri.temperature hy.temperature)
            (jsNullish ri.maxTokens hy.maxTokens)
            (jsNullish ri.topP hy.topP)
            (jsNullish ri.frequencyPenalty hy.frequencyPenalty)
            (jsNullish ri.presencePenalty hy.presencePenalty)
            (jsNullish ri.stopSequences hy.stopSequences)
            hy.tools) := by
      show (match lookupKey i emap with
        | none => EntityNode.mk i t mv nm ps pr
            (updateChildrenNodes cs (overlayAgentNode emap)) hy
        | some r => EntityNode.mk i t mv nm ps
            (if r.prompt = "" then pr else r.prompt)
            (updateChildrenNodes cs (overlayAgentNode emap))
            (Hyperparameters.mk (jsNullish r.model hy.model) hy.provider
              (jsNullish r.temperature hy.temperature)
              (jsNullish r.maxTokens hy.maxTokens)
              (jsNullish r.topP hy.topP)
              (jsNullish r.frequencyPenalty hy.frequencyPenalty)
              (jsNullish r.presencePenalty hy.presencePenalty)
              (jsNullish r.stopSequences hy.stopSequences)
              hy.tools)) = _
      rw [hl]
    rw [ho]
    refine ⟨rfl, rfl, ?_, ?_, ?_⟩
    · intro ri' hri
      simp only [EntityNode.id_mk] at hri
      rw [hl] at hri
      have : ri' = ri := by injection hri.symm
      subst this
      exact ⟨rfl, rfl, rfl, rfl, rfl, rfl, rfl, rfl, rfl, rfl⟩
    · intro hnone
      simp only [EntityNode.id_mk] at hnone
      rw [hl] at hnone
      exact absurd hnone (by simp)
    · exact updateChildrenNodes_eq_map _ cs

/-- C4 (witness for the amended theorem, the spec's field-level test): a
node with local temperature `0.7` overlaid with a response carrying
`temperature = null` and `model = "gpt-4"` keeps the local temperature and
takes the server model. -/
theorem claim_C4_amended_witness :
    lookupKey "root" [("root", EntityResponseItem.mk "hi" (some "gpt-4") none none
      none none none none none none)] = some (EntityResponseItem.mk "hi"
      (some "gpt-4") none none none none none none none none) ∧
    (updateEntityNodes
      (EntityNode.mk "root" EntityType.agent none none [] "hi" []
        (Hyperparameters.mk none (some "openai") (some (7/10)) none none none
          none none none))
      (overlayAgentNode [("root", EntityResponseItem.mk "hi" (some "gpt-4") none
        none none none none none none none)])).hyper.temperature = some (7/10) ∧
    (updateEntityNodes
      (EntityNode.mk "root" EntityType.agent none none [] "hi" []
        (Hyperparameters.mk none (some "openai") (some (7/10)) none none none
          none none none))
      (overlayAgentNode [("root", EntityResponseItem.mk "hi" (some "gpt-4") none
        none none none none none none none)])).hyper.model = some "gpt-4" := by
  refine ⟨rfl, ?_, ?_⟩
  · have h := (claim_C4_amended
      (EntityNode.mk "root" EntityType.agent none none [] "hi" []
        (Hyperparameters.mk none (some "openai") (some (7/10)) none none none
          none none none))
      [("root", EntityResponseItem.mk "hi" (some "gpt-4") none none none none
        none none none none)]).2.2.1
      (EntityResponseItem.mk "hi" (some "gpt-4") none none none none none none
        none none) rfl
    exact h.2.2.1.trans rfl
  · have h := (claim_C4_amended
      (EntityNode.mk "root" EntityType.agent none none [] "hi" []
        (Hyperparameters.mk none (some "openai") (some (7/10)) none none none
          none none none))
      [("root", EntityResponseItem.mk "hi" (some "gpt-4") none none none none
        none none none none)]).2.2.1
      (EntityResponseItem.mk "hi" (some "gpt-4") none none none none none none
        none none) rfl
    exact h.2.1.trans rfl

theorem foldl_objSet_lookup (i : String) :
    ∀ (xs : List EntityNode) (init : List (String × EntityRequestItem)),
      lookupKey i (xs.foldl (fun m cur => objSet m cur.id (formatNode cur)) init) =
        (match xs.reverse.find? (fun m => m.id == i) with
         | some m => some (formatNode m)
         | none => lookupKey i init) := by
  intro xs
  induction xs with
  | nil => intro init; rfl
  | cons x rest ih =>
    intro init
    rw [List.foldl_cons, ih, List.reverse_cons, List.find?_append]
    rcases hfr : rest.reverse.find? (fun m => m.id == i) with _ | m
    · rw [hfr]
      have hor : (Option.or (none : Option EntityNode)
          (List.find? (fun m => m.id == i) [x])) =
          List.find? (fun m => m.id == i) [x] := rfl
      rw [hor]
      by_cases hxi : (x.id == i) = true
      · have hfx : List.find? (fun m => m.id == i) [x] = some x := by
          simp [List.find?_singleton, hxi]
        rw [hfx, lookupKey_objSet]
        rw [if_pos (by simpa using hxi)]
      · have hfx : List.find? (fun m => m.id == i) [x] = none := by
          rw [List.find?_singleton, if_neg hxi]
        rw [hfx, lookupKey_objSet]
        rw [if_neg (by simpa using hxi)]
    · rw [hfr]
      rfl

mutual

theorem visit_infix : ∀ (n m : EntityNode), m ∈ visitList n →
    ∃ a b, visitList n = a ++ visitList m ++ b
  | EntityNode.mk i t mv nm ps pr cs hy, m, hmem => by
    have hvl : visitList (EntityNode.mk i t mv nm ps pr cs hy) =
        EntityNode.mk i t mv nm ps pr cs hy :: visitChildren cs := rfl
    rw [hvl] at hmem
    rcases List.mem_cons.mp hmem with rfl | hmem'
    · exact ⟨[], [], by simp [hvl]⟩
    · obtain ⟨a, b, hab⟩ := visitChildren_infix cs m hmem'
      exact ⟨EntityNode.mk i t mv nm ps pr cs hy :: a, b, by
        rw [hvl, hab]; simp⟩
termination_by structural n _ _ => n

theorem visitChildren_infix : ∀ (cs : List EntityNode) (m : EntityNode),
    m ∈ visitChildren cs → ∃ a b, visitChildren cs = a ++ visitList m ++ b
  | [], m, hmem => by
    exact absurd hmem (by
      intro h
      simp only [visitChildren] at h
      cases h)
  | c :: rest, m, hmem => by
    have hvc : visitChildren (c :: rest) = visitList c ++ visitChildren rest := rfl
    rw [hvc] at hmem
    rcases List.mem_append.mp hmem with hin | hin
    · obtain ⟨a, b, hab⟩ := visit_infix c m hin
      exact ⟨a, b ++ visitChildren rest, by rw [hvc, hab]; simp⟩
    · obtain ⟨a, b, hab⟩ := visitChildren_infix rest m hin
      exact ⟨visitList c ++ a, b, by rw [hvc, hab]; simp⟩
termination_by structural cs _ _ => cs

end

/-- C8: `formatEntityRequest` records the root id and type; its flat map is
built by applying `map[node.id] = formatNode node` along the pre-order
visit list (each node before its children, siblings in child order — every
node's visit list is a contiguous run of its parent's), so a lookup returns
the record of the LAST visited node with that id (a later node silently
overwrites an earlier one); and each record's `paramKeys` is the node's
literal param keys followed by its children ids, with `childrenIds` and
`childrenTypes` in child order. -/
theorem claim_C8 (n : EntityNode) :
    (formatEntityRequest n).rootId = n.id ∧
    (formatEntityRequest n).rootType = n.type ∧
    (∀ i, lookupKey i (formatEntityRequest n).map =
      (match (visitList n).reverse.find? (fun m => m.id == i) with
       | some m => some (formatNode m)
       | none => none)) ∧
    (∀ m, m ∈ visitList n → ∃ a b, visitList n = a ++ visitList m ++ b) ∧
    (∀ m : EntityNode, visitList m = m :: visitChildren m.children) ∧
    (∀ m : EntityNode,
      (formatNode m).paramKeys = m.params.map Prod.fst ++ m.children.map EntityNode.id ∧
      (formatNode m).childrenIds = m.children.map EntityNode.id ∧
      (formatNode m).childrenTypes = m.children.map EntityNode.type ∧
      (formatNode m).id = m.id ∧
      (formatNode m).prompt = m.prompt) := by
  refine ⟨rfl, rfl, ?_, ?_, ?_, ?_⟩
  · intro i
    exact (foldl_objSet_lookup i (visitList n) []).trans (by
      rcases (visitList n).reverse.find? (fun m => m.id == i) with _ | m <;> rfl)
  · intro m hm
    exact visit_infix n m hm
  · intro m
    obtain ⟨i, t, mv, nm, ps, pr, cs, hy⟩ := m
    rfl
  · intro m
    exact ⟨rfl, rfl, rfl, rfl, rfl⟩

/-- C8 (witness): in a tree whose two children share the id `d`, the map
entry for `d` is the record of the second (later-visited) child, and the
first child's visit list is a contiguous run of the root's. -/
theorem claim_C8_witness :
    lookupKey "d" (formatEntityRequest (EntityNode.mk "r" EntityType.agent none
      none [] "rp"
      [EntityNode.mk "d" EntityType.tool none none [] "p1" [] emptyHyper,
        EntityNode.mk "d" EntityType.tool none none [] "p2" [] emptyHyper]
      emptyHyper)).map =
      some (formatNode (EntityNode.mk "d" EntityType.tool none none [] "p2" []
        emptyHyper)) ∧
    (∃ a b, visitList (EntityNode.mk "r" EntityType.agent none none [] "rp"
      [EntityNode.mk "d" EntityType.tool none none [] "p1" [] emptyHyper,
        EntityNode.mk "d" EntityType.tool none none [] "p2" [] emptyHyper]
      emptyHyper) =
      a ++ visitList (EntityNode.mk "d" EntityType.tool none none [] "p1" []
        emptyHyper) ++ b) := by
  refine ⟨?_, ?_⟩
  · exact ((claim_C8 (EntityNode.mk "r" EntityType.agent none none [] "rp"
      [EntityNode.mk "d" EntityType.tool none none [] "p1" [] emptyHyper,
        EntityNode.mk "d" EntityType.tool none none [] "p2" [] emptyHyper]
      emptyHyper)).2.2.1 "d").trans (by rfl)
  · exact (claim_C8 (EntityNode.mk "r" EntityType.agent none none [] "rp"
      [EntityNode.mk "d" EntityType.tool none none [] "p1" [] emptyHyper,
        EntityNode.mk "d" EntityType.tool none none [] "p2" [] emptyHyper]
      emptyHyper)).2.2.2.1
      (EntityNode.mk "d" EntityType.tool none none [] "p1" [] emptyHyper)
      (by
        rw [show visitList (EntityNode.mk "r" EntityType.agent none none [] "rp"
          [EntityNode.mk "d" EntityType.tool none none [] "p1" [] emptyHyper,
            EntityNode.mk "d" EntityType.tool none none [] "p2" [] emptyHyper]
          emptyHyper) =
          [EntityNode.mk "r" EntityType.agent none none [] "rp"
            [EntityNode.mk "d" EntityType.tool none none [] "p1" [] emptyHyper,
              EntityNode.mk "d" EntityType.tool none none [] "p2" [] emptyHyper]
            emptyHyper,
            EntityNode.mk "d" EntityType.tool none none [] "p1" [] emptyHyper,
            EntityNode.mk "d" EntityType.tool none none [] "p2" [] emptyHyper]
          from rfl]
        exact List.mem_cons_of_mem _ (List.mem_cons_self _ _))

theorem specSPRAux_congr (p0 : Char) (pt v : List Char) : ∀ (f1 f2 : Nat) (s : List Char),
    s.length ≤ f1 → s.length ≤ f2 →
    specSPRAux p0 pt v f1 s = specSPRAux p0 pt v f2 s := by
  intro f1
  induction f1 with
  | zero =>
    intro f2 s h1 h2
    have hs : s = [] := by
      cases s with
      | nil => rfl
      | cons c cs => simp at h1
    subst hs
    cases f2 <;> rfl
  | succ n ih =>
    intro f2 s h1 h2
    cases s with
    | nil => cases f2 <;> rfl
    | cons c cs =>
      cases f2 with
      | zero => simp at h2
      | succ m =>
        simp only [List.length_cons] at h1 h2
        show (if (p0 :: pt).isPrefixOf (c :: cs) = true then _ else _) =
          (if (p0 :: pt).isPrefixOf (c :: cs) = true then _ else _)
        by_cases hp : (p0 :: pt).isPrefixOf (c :: cs) = true
        · rw [if_pos hp, if_pos hp]
          congr 1
          exact ih m _ (by simp [List.length_drop]; omega) (by simp [List.length_drop]; omega)
        · rw [if_neg hp, if_neg hp]
          congr 1
          exact ih m cs (by omega) (by omega)

theorem sSPR_no (p0 : Char) (pt v : List Char) (c : Char) (cs : List Char)
    (h : (p0 :: pt).isPrefixOf (c :: cs) = false) :
    specSinglePassReplace p0 pt v (c :: cs) = c :: specSinglePassReplace p0 pt v cs := by
  show (if (p0 :: pt).isPrefixOf (c :: cs) = true then _ else _) = _
  rw [if_neg (by simp [h])]
  rfl

theorem sSPR_match (p0 : Char) (pt v rest : List Char) :
    specSinglePassReplace p0 pt v ((p0 :: pt) ++ rest) =
      v ++ specSinglePassReplace p0 pt v rest := by
  have hlen : ((p0 :: pt) ++ rest).length = pt.length + 1 + rest.length := by
    simp [List.length_append]; omega
  show specSPRAux p0 pt v ((p0 :: pt) ++ rest).length ((p0 :: pt) ++ rest) = _
  rcases hfd : ((p0 :: pt) ++ rest).length with _ | f
  · simp [List.length_append] at hfd
  · show (if (p0 :: pt).isPrefixOf ((p0 :: pt) ++ rest) = true then
        v ++ specSPRAux p0 pt v f (((p0 :: pt) ++ rest).drop (pt.length + 1))
      else _) = _
    rw [if_pos (isPrefixOf_append_self _ _)]
    congr 1
    have hdrop : ((p0 :: pt) ++ rest).drop (pt.length + 1) = rest := by
      have : pt.length + 1 = (p0 :: pt).length := by simp
      rw [this]
      exact List.drop_left _ _
    rw [hdrop]
    apply specSPRAux_congr
    · omega
    · exact Nat.le_refl _

theorem sSPR_skip_run (k v : List Char) :
    ∀ (t rest : List Char), (∀ c ∈ t, ¬(c = lbChar)) →
      specSinglePassReplace lbChar (lbChar :: (k ++ [rbChar, rbChar])) v (t ++ rest) =
        t ++ specSinglePassReplace lbChar (lbChar :: (k ++ [rbChar, rbChar])) v rest := by
  intro t
  induction t with
  | nil => intro rest _; simp
  | cons c cs ih =>
    intro rest h
    have hns : (lbChar :: (lbChar :: (k ++ [rbChar, rbChar]))).isPrefixOf
        (c :: (cs ++ rest)) = false := by
      rcases hb : (lbChar :: (lbChar :: (k ++ [rbChar, rbChar]))).isPrefixOf
          (c :: (cs ++ rest)) with _ | _
      · rfl
      · obtain ⟨r, hr⟩ := isPrefixOf_iff_exists.mp hb
        simp only [List.cons_append, List.cons.injEq] at hr
        exact absurd hr.1 (h c (List.mem_cons_self _ _))
    rw [List.cons_append, sSPR_no _ _ _ _ _ hns, ih rest
      (fun x hx => h x (List.mem_cons_of_mem c hx))]
    simp

theorem sSPR_ph_ne (k w v rest : List Char) (hkI : isIdent k = true)
    (hwI : isIdent w = true) (hne : w ≠ k) :
    specSinglePassReplace lbChar (lbChar :: (k ++ [rbChar, rbChar])) v
        (patChars w ++ rest) =
      patChars w ++ specSinglePassReplace lbChar (lbChar :: (k ++ [rbChar, rbChar]))
        v rest := by
  simp only [isIdent, Bool.and_eq_true] at hkI hwI
  have hkne : k ≠ [] := by
    intro h; rw [h] at hkI; simp at hkI
  have hwne : w ≠ [] := by
    intro h; rw [h] at hwI; simp at hwI
  have hstep0 : (lbChar :: (lbChar :: (k ++ [rbChar, rbChar]))).isPrefixOf
      (patChars w ++ rest) = false := by
    rcases hb : (lbChar :: (lbChar :: (k ++ [rbChar, rbChar]))).isPrefixOf
        (patChars w ++ rest) with _ | _
    · rfl
    · obtain ⟨r, hr⟩ := isPrefixOf_iff_exists.mp hb
      simp only [patChars, List.cons_append, List.cons.injEq, List.append_assoc] at hr
      have hr2 : w ++ rbChar :: rbChar :: rest = k ++ rbChar :: rbChar :: r := by
        have := hr.2.2
        simpa using this
      obtain ⟨hwk, -⟩ := word_run_inj w k (rbChar :: rest) (rbChar :: r) hwI.2 hkI.2
        (by simpa using hr2)
      exact absurd hwk hne
  have h1 : patChars w ++ rest =
      lbChar :: (lbChar :: (w ++ rbChar :: rbChar :: rest)) := by
    simp [patChars]
  rw [h1] at hstep0 ⊢
  rw [sSPR_no _ _ _ _ _ hstep0]
  have hstep1 : (lbChar :: (lbChar :: (k ++ [rbChar, rbChar]))).isPrefixOf
      (lbChar :: (w ++ rbChar :: rbChar :: rest)) = false := by
    rcases hb : (lbChar :: (lbChar :: (k ++ [rbChar, rbChar]))).isPrefixOf
        (lbChar :: (w ++ rbChar :: rbChar :: rest)) with _ | _
    · rfl
    · obtain ⟨r, hr⟩ := isPrefixOf_iff_exists.mp hb
      simp only [List.cons_append, List.cons.injEq] at hr
      obtain ⟨-, hr2⟩ := hr
      cases w with
      | nil => exact absurd rfl hwne
      | cons w0 ws =>
        simp only [List.cons_append, List.cons.injEq] at hr2
        have hw0 : isWordChar w0 = true := by
          have := hwI.2
          simp only [List.all_cons, Bool.and_eq_true] at this
          exact this.1
        rw [hr2.1, isWordChar_lb] at hw0
        simp at hw0
  rw [sSPR_no _ _ _ _ _ hstep1]
  have hrun : ∀ c ∈ w ++ [rbChar, rbChar], ¬(c = lbChar) := by
    intro c hc
    rcases List.mem_append.mp hc with hw | hrb
    · intro hceq
      have : isWordChar c = true := by
        have := hwI.2
        rw [List.all_eq_true] at this
        exact this c hw
      rw [hceq, isWordChar_lb] at this
      simp at this
    · intro hceq
      rcases List.mem_cons.mp hrb with rfl | h2
      · exact rb_ne_lb hceq
      · rcases List.mem_cons.mp h2 with rfl | h3
        · exact rb_ne_lb hceq
        · cases h3
  have hsplit : w ++ rbChar :: rbChar :: rest = (w ++ [rbChar, rbChar]) ++ rest := by
    simp
  rw [hsplit, sSPR_skip_run k v (w ++ [rbChar, rbChar]) rest hrun]
  simp [patChars]

theorem sSPR_tokens (k v : List Char) (hkI : isIdent k = true) (hv : noBrace v = true) :
    ∀ (toks : List Tok), (∀ tok ∈ toks, Tok.wf tok = true) →
      specSinglePassReplace lbChar (lbChar :: (k ++ [rbChar, rbChar])) v
        (renderToks toks) =
      renderToks (toks.map (tokSubst k v)) := by
  intro toks
  induction toks with
  | nil => intro _; rfl
  | cons tok rest ih =>
    intro hwf
    have hrest := fun t ht => hwf t (List.mem_cons_of_mem tok ht)
    have hhead := hwf tok (List.mem_cons_self _ _)
    cases tok with
    | text t =>
      have htfree : ∀ c ∈ t, ¬(c = lbChar) := by
        intro c hc hceq
        simp only [Tok.wf, List.all_eq_true] at hhead
        have := hhead c hc
        rw [hceq] at this
        simp at this
      show specSinglePassReplace lbChar (lbChar :: (k ++ [rbChar, rbChar])) v
        (t ++ renderToks rest) = t ++ renderToks (rest.map (tokSubst k v))
      rw [sSPR_skip_run k v t _ htfree, ih hrest]
    | ph w =>
      have hwI : isIdent w = true := by
        simp only [Tok.wf] at hhead
        exact hhead
      by_cases hwk : w = k
      · subst hwk
        show specSinglePassReplace lbChar (lbChar :: (w ++ [rbChar, rbChar])) v
          (patChars w ++ renderToks rest) = _
        have : patChars w = (lbChar :: (lbChar :: (w ++ [rbChar, rbChar]))) := rfl
        rw [this, sSPR_match, ih hrest]
        show v ++ renderToks (rest.map (tokSubst w v)) =
          renderToks ((Tok.ph w :: rest).map (tokSubst w v))
        simp only [List.map_cons, tokSubst, if_pos rfl]
        rfl
      · show specSinglePassReplace lbChar (lbChar :: (k ++ [rbChar, rbChar])) v
          (patChars w ++ renderToks rest) = _
        rw [sSPR_ph_ne k w v _ hkI hwI hwk, ih hrest]
        simp only [List.map_cons, tokSubst, if_neg hwk]
        rfl

theorem insertParams_tokens :
    ∀ (params : List (String × String)) (toks : List Tok),
      (∀ tok ∈ toks, Tok.wf tok = true) →
      (∀ kv ∈ params, isIdent (kv.1 : String).data = true ∧
        noBrace (kv.2 : String).data = true ∧ noDollar (kv.2 : String).data = true) →
      substLiteral ⟨renderToks toks⟩ params =
        ⟨renderToks (toks.map (resolveTok params))⟩ := by
  intro params
  induction params with
  | nil =>
    intro toks _ _
    have : toks.map (resolveTok []) = toks := by
      have h2 : toks.map (resolveTok []) = toks.map id :=
        List.map_congr_left (fun tok _ => by cases tok <;> rfl)
      rw [h2, List.map_id]
    rw [this]
    rfl
  | cons kv rest ih =>
    intro toks hwf hp
    obtain ⟨hkI, hvB, hvD⟩ := hp kv (List.mem_cons_self _ _)
    have hstep : substLiteral ⟨renderToks toks⟩ (kv :: rest) =
        substLiteral
          (jsReplaceAll ⟨renderToks toks⟩ ⟨patChars kv.1.data⟩ kv.2) rest := rfl
    rw [hstep]
    have hrepl : jsReplaceAll ⟨renderToks toks⟩ ⟨patChars kv.1.data⟩ kv.2 =
        (⟨renderToks (toks.map (tokSubst kv.1.data kv.2.data))⟩ : String) := by
      show (⟨replaceGlobal lbChar (lbChar :: (kv.1.data ++ [rbChar, rbChar]))
        kv.2.data [] (renderToks toks)⟩ : String) = _
      rw [replaceGlobal_noDollar _ _ _ hvD, sSPR_tokens kv.1.data kv.2.data hkI hvB toks hwf]
    rw [hrepl]
    have hwf' : ∀ tok ∈ toks.map (tokSubst kv.1.data kv.2.data), Tok.wf tok = true := by
      intro tok htok
      obtain ⟨t0, ht0, rfl⟩ := List.mem_map.mp htok
      cases t0 with
      | text t => exact hwf (Tok.text t) ht0
      | ph w =>
        show Tok.wf (if w = kv.1.data then Tok.text kv.2.data else Tok.ph w) = true
        by_cases hwk : w = kv.1.data
        · rw [if_pos hwk]
          exact hvB
        · rw [if_neg hwk]
          exact hwf (Tok.ph w) ht0
    rw [ih _ hwf' (fun x hx => hp x (List.mem_cons_of_mem kv hx))]
    congr 1
    rw [List.map_map]
    apply congrArg renderToks
    apply List.map_congr_left
    intro tok _
    show resolveTok rest (tokSubst kv.1.data kv.2.data tok) = resolveTok (kv :: rest) tok
    cases tok with
    | text t => rfl
    | ph w =>
      by_cases hwk : w = kv.1.data
      · show resolveTok rest (if w = kv.1.data then Tok.text kv.2.data else Tok.ph w) = _
        rw [if_pos hwk]
        show Tok.text kv.2.data =
          (match lookupCh w (kv :: rest) with
           | some v => Tok.text v.data
           | none => Tok.ph w)
        have : lookupCh w (kv :: rest) = some kv.2 := by
          show (if kv.1.data = w then some kv.2 else lookupCh w rest) = some kv.2
          rw [if_pos hwk.symm]
        rw [this]
      · show resolveTok rest (if w = kv.1.data then Tok.text kv.2.data else Tok.ph w) = _
        rw [if_neg hwk]
        show (match lookupCh w rest with
           | some v => Tok.text v.data
           | none => Tok.ph w) =
          (match lookupCh w (kv :: rest) with
           | some v => Tok.text v.data
           | none => Tok.ph w)
        have : lookupCh w (kv :: rest) = lookupCh w rest := by
          show (if kv.1.data = w then some kv.2 else lookupCh w rest) = lookupCh w rest
          rw [if_neg (fun h => hwk h.symm)]
        rw [this]

theorem lookupCh_perm (w : List Char) :
    ∀ (params params' : List (String × String)), params.Perm params' →
      (params.map Prod.fst).Nodup → lookupCh w params = lookupCh w params' := by
  intro params params' hperm
  induction hperm with
  | nil => intro _; rfl
  | cons x h ih =>
    intro hnd
    simp only [List.map_cons, List.nodup_cons] at hnd
    rename_i l₁ l₂
    show (if x.1.data = w then some x.2 else lookupCh w l₁) =
      (if x.1.data = w then some x.2 else lookupCh w l₂)
    by_cases hx : x.1.data = w
    · rw [if_pos hx, if_pos hx]
    · rw [if_neg hx, if_neg hx, ih hnd.2]
  | swap x y l =>
    intro hnd
    simp only [List.map_cons, List.nodup_cons, List.mem_cons] at hnd
    show (if y.1.data = w then some y.2 else
        if x.1.data = w then some x.2 else lookupCh w l) =
      (if x.1.data = w then some x.2 else
        if y.1.data = w then some y.2 else lookupCh w l)
    by_cases hy : y.1.data = w
    · by_cases hx : x.1.data = w
      · exfalso
        have : y.1 = x.1 := by
          apply String.ext
          rw [hy, hx]
        exact hnd.1 (Or.inl this)
      · rw [if_pos hy, if_neg hx, if_pos hy]
    · by_cases hx : x.1.data = w
      · rw [if_neg hy, if_pos hx, if_pos hx]
      · rw [if_neg hy, if_neg hx, if_neg hx, if_neg hy]
  | trans h1 h2 ih1 ih2 =>
    intro hnd
    rw [ih1 hnd]
    apply ih2
    have := h1.map Prod.fst
    exact this.nodup_iff.mp hnd

/-- C5 (counterexample to the claim as stated): the map with distinct keys
`a := (ph b)` and `b := "B"` substituted into the template `(ph a)` gives
`B` in one entry order and `(ph b)` in the other — replacement is
order-dependent because each key's pass rescans text inserted for earlier
keys. -/
theorem claim_C5_counterexample :
    insertParamsIntoPrompt ⟨patChars "a".data⟩
        [("a", ⟨patChars "b".data⟩), ("b", "B")] = .ok "B" ∧
    insertParamsIntoPrompt ⟨patChars "a".data⟩
        [("b", "B"), ("a", ⟨patChars "b".data⟩)] = .ok ⟨patChars "b".data⟩ ∧
    List.Perm [("a", (⟨patChars "b".data⟩ : String)), ("b", "B")]
      [("b", "B"), ("a", ⟨patChars "b".data⟩)] ∧
    ("B" : String) ≠ ⟨patChars "b".data⟩ := by
  refine ⟨by decide, by decide, ?_, by decide⟩
  exact List.Perm.swap _ _ _

/-- C5 (amended): substitution is order-independent across distinct keys
provided the template is a well-formed alternation of brace-free text and
word-identifier placeholders and every value is brace- and dollar-free: for
such inputs each placeholder is resolved by the first entry with its key,
independently of entry order.  Without those provisos it fails (see the
counterexample: a value containing another key's placeholder). -/
theorem claim_C5_amended (toks : List Tok) (params params' : List (String × String))
    (hwf : ∀ tok ∈ toks, Tok.wf tok = true)
    (hp : ∀ kv ∈ params, litKey (kv.1 : String).data = true ∧
      noBrace (kv.2 : String).data = true ∧ noDollar (kv.2 : String).data = true)
    (hnd : (params.map Prod.fst).Nodup)
    (hperm : params.Perm params') :
    insertParamsIntoPrompt ⟨renderToks toks⟩ params =
      insertParamsIntoPrompt ⟨renderToks toks⟩ params' := by
  have hp' : ∀ kv ∈ params', litKey (kv.1 : String).data = true ∧
      noBrace (kv.2 : String).data = true ∧ noDollar (kv.2 : String).data = true :=
    fun kv hkv => hp kv (hperm.symm.subset hkv)
  have hid : ∀ kv ∈ params, isIdent (kv.1 : String).data = true ∧
      noBrace (kv.2 : String).data = true ∧ noDollar (kv.2 : String).data = true := by
    intro kv hkv
    obtain ⟨h1, h2, h3⟩ := hp kv hkv
    simp only [litKey, Bool.and_eq_true] at h1
    exact ⟨h1.1, h2, h3⟩
  have hid' : ∀ kv ∈ params', isIdent (kv.1 : String).data = true ∧
      noBrace (kv.2 : String).data = true ∧ noDollar (kv.2 : String).data = true :=
    fun kv hkv => hid kv (hperm.symm.subset hkv)
  rw [insertParams_lit _ _ (fun kv hkv => (hp kv hkv).1),
    insertParams_lit _ _ (fun kv hkv => (hp' kv hkv).1)]
  apply congrArg Except.ok
  rw [insertParams_tokens params toks hwf hid,
    insertParams_tokens params' toks hwf hid']
  have : toks.map (resolveTok params) = toks.map (resolveTok params') := by
    apply List.map_congr_left
    intro tok _
    cases tok with
    | text t => rfl
    | ph w =>
      show (match lookupCh w params with
         | some v => Tok.text v.data
         | none => Tok.ph w) =
        (match lookupCh w params' with
         | some v => Tok.text v.data
         | none => Tok.ph w)
      rw [lookupCh_perm w params params' hperm hnd]
  rw [this]

/-- C5 (witness for the amended theorem): the template `Hi (ph name)` with
the two-entry map in either order yields the same result. -/
theorem claim_C5_amended_witness :
    (∀ tok ∈ [Tok.text "Hi ".data, Tok.ph "name".data], Tok.wf tok = true) ∧
    insertParamsIntoPrompt ⟨renderToks [Tok.text "Hi ".data, Tok.ph "name".data]⟩
        [("name", "A"), ("x", "B")] =
      insertParamsIntoPrompt ⟨renderToks [Tok.text "Hi ".data, Tok.ph "name".data]⟩
        [("x", "B"), ("name", "A")] :=
  ⟨by decide,
    claim_C5_amended [Tok.text "Hi ".data, Tok.ph "name".data]
      [("name", "A"), ("x", "B")] [("x", "B"), ("name", "A")]
      (by decide) (by decide) (by decide) (List.Perm.swap _ _ _)⟩

theorem containsKey_iff_mem {β : Type _} (k : String) (m : List (String × β)) :
    containsKey k m = true ↔ k ∈ m.map Prod.fst := by
  induction m with
  | nil => simp [containsKey, lookupKey]
  | cons p rest ih =>
    obtain ⟨k', v⟩ := p
    show (lookupKey k ((k', v) :: rest)).isSome = true ↔ _
    simp only [lookupKey, List.map_cons, List.mem_cons]
    by_cases h : k' = k
    · subst h
      simp
    · rw [if_neg h]
      rw [show (lookupKey k rest).isSome = containsKey k rest from rfl, ih]
      constructor
      · exact Or.inr
      · rintro (hk | hk)
        · exact absurd hk.symm h
        · exact hk

theorem evalNode_eq (i t mv nm ps pr cs hy) (memo : List (String × String)) :
    evalNode (EntityNode.mk i t mv nm ps pr cs hy) memo =
      match lookupKey i memo with
      | some v => Except.ok (memo, v)
      | none =>
        match evalChildren cs memo ps with
        | .error e => .error e
        | .ok (memo', params) =>
          match validateEntityParams pr params i t with
          | some err => Except.error (EvalError.thrown err)
          | none =>
            match insertParamsIntoPrompt pr params with
            | .error e => .error e
            | .ok r => .ok ((i, r) :: memo', r) := rfl

theorem evalChildren_cons_eq (c : EntityNode) (cs : List EntityNode)
    (memo params : List (String × String)) :
    evalChildren (c :: cs) memo params =
      match evalNode c memo with
      | .error e => .error e
      | .ok (memo', v) => evalChildren cs memo' (objSet params c.id v) := rfl

theorem evalNaive_eq (i t mv nm ps pr cs hy) :
    evalNaive (EntityNode.mk i t mv nm ps pr cs hy) =
      match evalNaiveChildren cs ps with
      | .error e => .error e
      | .ok params =>
        match validateEntityParams pr params i t with
        | some err => Except.error (EvalError.thrown err)
        | none => insertParamsIntoPrompt pr params := rfl

theorem evalNaiveChildren_cons_eq (c : EntityNode) (cs : List EntityNode)
    (params : List (String × String)) :
    evalNaiveChildren (c :: cs) params =
      match evalNaive c with
      | .error e => .error e
      | .ok v => evalNaiveChildren cs (objSet params c.id v) := rfl

theorem visitList_eq (i t mv nm ps pr cs hy) :
    visitList (EntityNode.mk i t mv nm ps pr cs hy) =
      EntityNode.mk i t mv nm ps pr cs hy :: visitChildren cs := rfl

theorem visitChildren_cons_eq (c : EntityNode) (cs : List EntityNode) :
    visitChildren (c :: cs) = visitList c ++ visitChildren cs := rfl

mutual

theorem visitList_sizeOf : ∀ (k m : EntityNode), m ∈ visitList k → sizeOf m ≤ sizeOf k
  | EntityNode.mk i t mv nm ps pr cs hy, m, hm => by
    have hm' : m = EntityNode.mk i t mv nm ps pr cs hy ∨ m ∈ visitChildren cs := by
      rw [visitList_eq] at hm
      exact List.mem_cons.mp hm
    rcases hm' with h | h
    · subst h
      exact Nat.le_refl _
    · have h1 := visitChildren_sizeOf cs m h
      have h2 : sizeOf cs < sizeOf (EntityNode.mk i t mv nm ps pr cs hy) := by
        simp only [EntityNode.mk.sizeOf_spec]
        omega
      omega
termination_by structural k _ _ => k

theorem visitChildren_sizeOf : ∀ (cs : List EntityNode) (m : EntityNode),
    m ∈ visitChildren cs → sizeOf m < sizeOf cs
  | [], m, hm => by
    rw [show visitChildren [] = [] from rfl] at hm
    exact absurd hm (by simp)
  | c :: rest, m, hm => by
    rw [visitChildren_cons_eq] at hm
    rcases List.mem_append.mp hm with h | h
    · have h1 := visitList_sizeOf c m h
      have h2 : sizeOf c < sizeOf (c :: rest) := by
        simp only [List.cons.sizeOf_spec]
        omega
      omega
    · have h1 := visitChildren_sizeOf rest m h
      have h2 : sizeOf rest < sizeOf (c :: rest) := by
        simp only [List.cons.sizeOf_spec]
        omega
      omega
termination_by structural cs _ _ => cs

end

mutual

theorem evalNode_mem : ∀ (root : EntityNode),
    (∀ m1 ∈ visitList root, ∀ m2 ∈ visitList root,
      EntityNode.id m1 = EntityNode.id m2 → m1 = m2) →
    ∀ (n : EntityNode) (memo : List (String × String)),
    (∀ m ∈ visitList n, m ∈ visitList root) →
    coherentMemo root memo →
    (memo.map Prod.fst).Nodup →
    (∀ e, evalNaive n = .error e → evalNode n memo = .error e) ∧
    (∀ v, evalNaive n = .ok v → ∃ memo₂, evalNode n memo = .ok (memo₂, v) ∧
      coherentMemo root memo₂ ∧ (memo₂.map Prod.fst).Nodup ∧
      (∀ j, containsKey j memo₂ = true →
        containsKey j memo = true ∨ ∃ m ∈ visitList n, EntityNode.id m = j))
  | root, hD, EntityNode.mk i t mv nm ps pr cs hy, memo, hsub, hco, hnd => by
    have hself : EntityNode.mk i t mv nm ps pr cs hy ∈ visitList root :=
      hsub _ (by rw [visitList_eq]; exact List.mem_cons_self _ _)
    rcases hlk : lookupKey i memo with _ | v0
    · have hEN0 : evalNode (EntityNode.mk i t mv nm ps pr cs hy) memo =
          match evalChildren cs memo ps with
          | .error e => .error e
          | .ok (memo', params) =>
            match validateEntityParams pr params i t with
            | some err => Except.error (EvalError.thrown err)
            | none =>
              match insertParamsIntoPrompt pr params with
              | .error e => .error e
              | .ok r => .ok ((i, r) :: memo', r) := by
        rw [evalNode_eq, hlk]
      have hsub' : ∀ m ∈ visitChildren cs, m ∈ visitList root := by
        intro m hm
        exact hsub m (by rw [visitList_eq]; exact List.mem_cons_of_mem _ hm)
      obtain ⟨hchErr, hchOk⟩ := evalChildren_mem root hD cs memo ps hsub' hco hnd
      rcases hnc : evalNaiveChildren cs ps with e | ps₂
      · have hEC := hchErr e hnc
        have hNv : evalNaive (EntityNode.mk i t mv nm ps pr cs hy) = .error e := by
          rw [evalNaive_eq, hnc]
        constructor
        · intro e' he'
          rw [hNv] at he'
          injection he' with h
          subst h
          rw [hEN0, hEC]
        · intro v hv
          rw [hNv] at hv
          exact Except.noConfusion hv
      · obtain ⟨memo₂, hEC, hco₂, hnd₂, hnew₂⟩ := hchOk ps₂ hnc
        have hEN1 : evalNode (EntityNode.mk i t mv nm ps pr cs hy) memo =
            match validateEntityParams pr ps₂ i t with
            | some err => Except.error (EvalError.thrown err)
            | none =>
              match insertParamsIntoPrompt pr ps₂ with
              | .error e => .error e
              | .ok r => .ok ((i, r) :: memo₂, r) := by
          rw [hEN0, hEC]
        have hNv0 : evalNaive (EntityNode.mk i t mv nm ps pr cs hy) =
            match validateEntityParams pr ps₂ i t with
            | some err => Except.error (EvalError.thrown err)
            | none => insertParamsIntoPrompt pr ps₂ := by
          rw [evalNaive_eq, hnc]
        rcases hval : validateEntityParams pr ps₂ i t with _ | err
        · rw [hval] at hEN1 hNv0
          have hEN15 : evalNode (EntityNode.mk i t mv nm ps pr cs hy) memo =
              match insertParamsIntoPrompt pr ps₂ with
              | .error e => .error e
              | .ok r => .ok ((i, r) :: memo₂, r) := hEN1
          have hNv1 : evalNaive (EntityNode.mk i t mv nm ps pr cs hy) =
              insertParamsIntoPrompt pr ps₂ := hNv0
          rcases hip : insertParamsIntoPrompt pr ps₂ with e | r
          · have hEN2 : evalNode (EntityNode.mk i t mv nm ps pr cs hy) memo =
                Except.error e := by
              rw [hEN15, hip]
            have hNv : evalNaive (EntityNode.mk i t mv nm ps pr cs hy) =
                Except.error e := by
              rw [hNv1, hip]
            constructor
            · intro e' he'
              rw [hNv] at he'
              injection he' with h
              rw [← h]
              exact hEN2
            · intro v hv
              rw [hNv] at hv
              exact Except.noConfusion hv
          · have hEN2 : evalNode (EntityNode.mk i t mv nm ps pr cs hy) memo =
                Except.ok ((i, r) :: memo₂, r) := by
              rw [hEN15, hip]
            have hNv : evalNaive (EntityNode.mk i t mv nm ps pr cs hy) =
                Except.ok r := by
              rw [hNv1, hip]
            constructor
            · intro e' he'
              rw [hNv] at he'
              exact Except.noConfusion he'
            · intro v hv
              rw [hNv] at hv
              injection hv with hv'
              subst hv'
              refine ⟨(i, r) :: memo₂, hEN2, ?_, ?_, ?_⟩
              · intro j w hj
                have hj' : (if i = j then some r
                    else lookupKey j memo₂) = some w := hj
                by_cases hij : i = j
                · rw [if_pos hij] at hj'
                  injection hj' with hw
                  refine ⟨EntityNode.mk i t mv nm ps pr cs hy, hself, hij, ?_⟩
                  rw [hNv, hw]
                · rw [if_neg hij] at hj'
                  exact hco₂ j w hj'
              · have hnotin : containsKey i memo₂ = false := by
                  by_contra hcon
                  rw [Bool.not_eq_false] at hcon
                  rcases hnew₂ i hcon with hin | ⟨m, hm, hmid⟩
                  · have hin' : (lookupKey i memo).isSome = true := hin
                    rw [hlk] at hin'
                    exact absurd hin' (by decide)
                  · have hmroot : m ∈ visitList root := hsub' m hm
                    have heqm : m = EntityNode.mk i t mv nm ps pr cs hy :=
                      hD m hmroot _ hself (by rw [hmid]; rfl)
                    rw [heqm] at hm
                    have h1 := visitChildren_sizeOf cs _ hm
                    have h2 : sizeOf cs < sizeOf (EntityNode.mk i t mv nm ps pr cs hy) := by
                      simp only [EntityNode.mk.sizeOf_spec]
                      omega
                    omega
                show (i :: memo₂.map Prod.fst).Nodup
                rw [List.nodup_cons]
                refine ⟨?_, hnd₂⟩
                intro hmem
                rw [← containsKey_iff_mem] at hmem
                rw [hnotin] at hmem
                exact Bool.noConfusion hmem
              · intro j hj
                have hj' : (if i = j then some r
                    else lookupKey j memo₂).isSome = true := hj
                by_cases hij : i = j
                · right
                  exact ⟨EntityNode.mk i t mv nm ps pr cs hy,
                    by rw [visitList_eq]; exact List.mem_cons_self _ _, hij⟩
                · rw [if_neg hij] at hj'
                  rcases hnew₂ j hj' with h | ⟨m, hm, hmid⟩
                  · exact Or.inl h
                  · exact Or.inr ⟨m,
                      by rw [visitList_eq]; exact List.mem_cons_of_mem _ hm, hmid⟩
        · rw [hval] at hEN1 hNv0
          have hEN2 : evalNode (EntityNode.mk i t mv nm ps pr cs hy) memo =
              Except.error (EvalError.thrown err) := hEN1
          have hNv : evalNaive (EntityNode.mk i t mv nm ps pr cs hy) =
              Except.error (EvalError.thrown err) := hNv0
          constructor
          · intro e' he'
            rw [hNv] at he'
            injection he' with h
            rw [← h]
            exact hEN2
          · intro v hv
            rw [hNv] at hv
            exact Except.noConfusion hv
    · obtain ⟨m, hmroot, hmid, hmnv⟩ := hco i v0 hlk
      have heqm : m = EntityNode.mk i t mv nm ps pr cs hy :=
        hD m hmroot _ hself (by rw [hmid]; rfl)
      rw [heqm] at hmnv
      have hEN : evalNode (EntityNode.mk i t mv nm ps pr cs hy) memo =
          .ok (memo, v0) := by
        rw [evalNode_eq, hlk]
      constructor
      · intro e he
        rw [hmnv] at he
        exact Except.noConfusion he
      · intro v hv
        rw [hmnv] at hv
        injection hv with h
        subst h
        exact ⟨memo, hEN, hco, hnd, fun j hj => Or.inl hj⟩
termination_by structural _ _ n _ _ _ _ => n

theorem evalChildren_mem : ∀ (root : EntityNode),
    (∀ m1 ∈ visitList root, ∀ m2 ∈ visitList root,
      EntityNode.id m1 = EntityNode.id m2 → m1 = m2) →
    ∀ (cs : List EntityNode) (memo params : List (String × String)),
    (∀ m ∈ visitChildren cs, m ∈ visitList root) →
    coherentMemo root memo →
    (memo.map Prod.fst).Nodup →
    (∀ e, evalNaiveChildren cs params = .error e →
      evalChildren cs memo params = .error e) ∧
    (∀ ps₂, evalNaiveChildren cs params = .ok ps₂ →
      ∃ memo₂, evalChildren cs memo params = .ok (memo₂, ps₂) ∧
      coherentMemo root memo₂ ∧ (memo₂.map Prod.fst).Nodup ∧
      (∀ j, containsKey j memo₂ = true →
        containsKey j memo = true ∨ ∃ m ∈ visitChildren cs, EntityNode.id m = j))
  | root, hD, [], memo, params, hsub, hco, hnd => by
    constructor
    · intro e he
      have he' : (Except.ok params : Except EvalError (List (String × String))) =
          Except.error e := he
      exact Except.noConfusion he'
    · intro ps₂ h
      have h' : (Except.ok params : Except EvalError (List (String × String))) =
          Except.ok ps₂ := h
      injection h' with h''
      subst h''
      exact ⟨memo, rfl, hco, hnd, fun j hj => Or.inl hj⟩
  | root, hD, c :: rest, memo, params, hsub, hco, hnd => by
    obtain ⟨hnErr, hnOk⟩ := evalNode_mem root hD c memo
      (fun m hm => hsub m
        (by rw [visitChildren_cons_eq]; exact List.mem_append_left _ hm))
      hco hnd
    rcases hnv : evalNaive c with e | v
    · have hEN := hnErr e hnv
      constructor
      · intro e' he'
        have he2 : (match evalNaive c with
            | .error e => Except.error e
            | .ok v => evalNaiveChildren rest (objSet params c.id v)) =
            Except.error e' := he'
        rw [hnv] at he2
        have he3 : (Except.error e : Except EvalError (List (String × String))) =
            Except.error e' := he2
        injection he3 with h
        subst h
        rw [evalChildren_cons_eq, hEN]
      · intro ps₂ hps
        have hps2 : (match evalNaive c with
            | .error e => Except.error e
            | .ok v => evalNaiveChildren rest (objSet params c.id v)) =
            Except.ok ps₂ := hps
        rw [hnv] at hps2
        have hps3 : (Except.error e : Except EvalError (List (String × String))) =
            Except.ok ps₂ := hps2
        exact Except.noConfusion hps3
    · obtain ⟨memo₂, hEN, hco₂, hnd₂, hnew₂⟩ := hnOk v hnv
      obtain ⟨hrErr, hrOk⟩ := evalChildren_mem root hD rest memo₂ (objSet params c.id v)
        (fun m hm => hsub m
          (by rw [visitChildren_cons_eq]; exact List.mem_append_right _ hm))
        hco₂ hnd₂
      have hstep : ∀ (r : Except EvalError (List (String × String))),
          evalNaiveChildren (c :: rest) params = r ↔
          evalNaiveChildren rest (objSet params c.id v) = r := by
        intro r
        rw [evalNaiveChildren_cons_eq, hnv]
      have hstep2 : evalChildren (c :: rest) memo params =
          evalChildren rest memo₂ (objSet params c.id v) := by
        rw [evalChildren_cons_eq, hEN]
      constructor
      · intro e he
        rw [hstep2]
        exact hrErr e ((hstep _).mp he)
      · intro ps₂ hps
        obtain ⟨memo₃, hEC, hco₃, hnd₃, hnew₃⟩ := hrOk ps₂ ((hstep _).mp hps)
        refine ⟨memo₃, ?_, hco₃, hnd₃, ?_⟩
        · rw [hstep2]
          exact hEC
        · intro j hj
          rcases hnew₃ j hj with h | ⟨m, hm, hmid⟩
          · rcases hnew₂ j h with h' | ⟨m, hm, hmid⟩
            · exact Or.inl h'
            · exact Or.inr ⟨m,
                by rw [visitChildren_cons_eq]; exact List.mem_append_left _ hm, hmid⟩
          · exact Or.inr ⟨m,
              by rw [visitChildren_cons_eq]; exact List.mem_append_right _ hm, hmid⟩
termination_by structural _ _ cs _ _ _ _ _ => cs

end

/-- C6: for every tree in which all node ids are distinct (equal-id nodes
are the same node, covering shared objects reachable via several paths),
the memoized evaluation `evaluateEntity` — which starts every call from an
empty memo by definition — returns exactly the result of the naive
memo-free depth-first reference evaluation `evalNaive`, and the memo built
during the run holds at most one entry per node id: since every
substitution computed pushes exactly one entry under its node's id, each
distinct id's substitution is computed at most once per call. -/
theorem claim_C6 (n : EntityNode)
    (hD : ∀ m1 ∈ visitList n, ∀ m2 ∈ visitList n,
      EntityNode.id m1 = EntityNode.id m2 → m1 = m2) :
    evaluateEntity n = evalNaive n ∧
    ∀ memo v, evalNode n [] = Except.ok (memo, v) →
      (memo.map Prod.fst).Nodup := by
  obtain ⟨h1, h2⟩ := evalNode_mem n hD n [] (fun m hm => hm)
    (fun i v hiv => Option.noConfusion hiv) List.nodup_nil
  rcases hnv : evalNaive n with e | v
  · have hEN := h1 e hnv
    constructor
    · show (match evalNode n [] with
        | .error e => Except.error e
        | .ok (_, v) => Except.ok v) = Except.error e
      rw [hEN]
    · intro memo v hv
      rw [hEN] at hv
      exact Except.noConfusion hv
  · obtain ⟨memo₂, hEN, _, hnd₂, _⟩ := h2 v hnv
    constructor
    · show (match evalNode n [] with
        | .error e => Except.error e
        | .ok (_, v) => Except.ok v) = Except.ok v
      rw [hEN]
    · intro memo v' hv
      rw [hEN] at hv
      injection hv with h
      injection h with ha hb
      rw [← ha]
      exact hnd₂

/-- C6 (witness): the tree whose root `r` has the same child object `c`
twice evaluates identically under the memoized and the naive evaluator,
with duplicate-free memo keys. -/
theorem claim_C6_witness :
    evaluateEntity c6root = evalNaive c6root ∧
    ∀ memo v, evalNode c6root [] = Except.ok (memo, v) →
      (memo.map Prod.fst).Nodup :=
  claim_C6 c6root (by
    intro m1 h1 m2 h2 hid
    rw [show visitList c6root = [c6root, c6child, c6child] from rfl] at h1 h2
    simp only [List.mem_cons, List.not_mem_nil, or_false] at h1 h2
    rcases h1 with h1 | h1 | h1 <;> rcases h2 with h2 | h2 | h2 <;>
      subst h1 <;> subst h2 <;> first
      | rfl
      | exact absurd hid (by decide))
